import Mathlib

/-!
Verification of the synesthesia-web audio feature pipeline.

This file gives a shallow embedding, in Lean 4, of the numeric core of the
repository (gadflyplayerone/synesthesia-web) and settles the frozen claims
C1..C10 about it.

Embedding conventions:
* JavaScript numbers are modelled as exact rationals (ℚ) wherever the code
  only uses field operations, `Math.max/min/abs/floor` and comparisons, and
  as real numbers (ℝ) where transcendental functions (`Math.log`, `Math.log2`,
  `Math.cos`, `Math.sqrt`, `Math.pow`) appear.  Decimal literals of the source
  are taken exactly (e.g. `0.02` is `2/100`).
* Division by zero in ℚ/ℝ yields 0; in JS it yields `NaN`/`Infinity`.  At the
  only places where a zero denominator can occur (autocorrelation with
  `lag ≥ buf.length`, empty inputs) the JS `NaN` never updates a running
  maximum (every `NaN > x` comparison is false) and the Lean value 0 never
  updates it either (the running maximum is never below 0 there), so the two
  semantics agree on every observable result; this is noted again at each
  definition concerned.
* Arrays are `List`s; `arr[i]` reads in bounds become `List.getD i 0`.
* Index sets of `for` loops are `List.range`/`List.range'` of the same bounds.
-/

namespace Synesthesia

/-! ## Small helpers from VisualizerPro.tsx -/

/-- `clamp01` of VisualizerPro.tsx: `Math.max(0, Math.min(1, v))`. -/
def clamp01 (v : ℚ) : ℚ := max 0 (min 1 v)

/-- `lerp` of VisualizerPro.tsx: `a + (b - a) * t`. -/
def lerp (a b t : ℚ) : ℚ := a + (b - a) * t

/-! ## Note predictor (src/audio/pitch.ts, `predictNextMidi`) -/

/-- `predictNextMidi` of pitch.ts.  `history.slice(-8)` is
`drop (length - 8)`; the JS numeric sort `(a,b)=>a-b` is modelled by
`insertionSort (· ≤ ·)` (for a linear order, any sorted permutation of the
intervals is the same list, so the exact sorting algorithm is irrelevant);
`intervals[⌊len/2⌋] || 0` is `getD (len/2) 0` (the fallback 0 is also what
`|| 0` yields when the indexed value is itself 0). -/
def predictNextMidi (history : List ℚ) (horizon : ℚ) : Option ℚ :=
  let xs := history.drop (history.length - 8)
  if xs.length < 3 then none
  else
    let intervals := (xs.zip xs.tail).map (fun p => p.2 - p.1)
    let sorted := List.insertionSort (· ≤ ·) intervals
    let median := sorted.getD (sorted.length / 2) 0
    some (xs.getD (xs.length - 1) 0 + median * horizon)

/-! ## Error accumulators (VisualizerPro.tsx, lines 1458-1490)

The three running means `errorMAE`/`errorMAEHz`/`errorMAECents` each keep a
`(mean, count)` pair and are updated by
`mean' = (mean*count + sample)/(count+1); count' = count+1`. -/

/-- One `(mean, count)` accumulator, e.g. `errorMAE`/`errorCount`. -/
structure ErrAcc where
  mean : ℚ
  count : ℕ
deriving DecidableEq

/-- The incremental-average update used for each of the three accumulators:
`mean' = (mean*count + sample)/(count+1)`, `count' = count+1`. -/
def accFeed (a : ErrAcc) (v : ℚ) : ErrAcc :=
  ⟨(a.mean * (a.count : ℚ) + v) / ((a.count : ℚ) + 1), a.count + 1⟩

/-- One sample routed to one of the three accumulators (the loop feeds the
semitone accumulator whenever a prediction is scored, and the Hz and cents
accumulators additionally require a non-null detected frequency; a session is
an arbitrary interleaving of such feeds). -/
inductive ErrSample where
  | semi : ℚ → ErrSample
  | hz : ℚ → ErrSample
  | cents : ℚ → ErrSample
deriving DecidableEq

/-- The triple of accumulators (`errorMAE`, `errorMAEHz`, `errorMAECents`
with their counts). -/
structure ErrStats where
  semi : ErrAcc
  hz : ErrAcc
  cents : ErrAcc
deriving DecidableEq

/-- Session start: all means 0, all counts 0 (the `useRef(0)` initials). -/
def errInit : ErrStats := ⟨⟨0, 0⟩, ⟨0, 0⟩, ⟨0, 0⟩⟩

/-- One feed event: each event touches exactly one accumulator, with the
update of `accFeed` (mirrors lines 1461-1481 of VisualizerPro.tsx). -/
def errStep (s : ErrStats) (e : ErrSample) : ErrStats :=
  match e with
  | .semi v => { s with semi := accFeed s.semi v }
  | .hz v => { s with hz := accFeed s.hz v }
  | .cents v => { s with cents := accFeed s.cents v }

/-- A whole session: fold the feed events over the initial state. -/
def runErrStats (es : List ErrSample) : ErrStats := es.foldl errStep errInit

/-- The samples a session feeds to the semitone accumulator, in order. -/
def semiSamples (es : List ErrSample) : List ℚ :=
  es.filterMap (fun e => match e with | .semi v => some v | _ => none)

/-- The samples a session feeds to the Hz accumulator, in order. -/
def hzSamples (es : List ErrSample) : List ℚ :=
  es.filterMap (fun e => match e with | .hz v => some v | _ => none)

/-- The samples a session feeds to the cents accumulator, in order. -/
def centsSamples (es : List ErrSample) : List ℚ :=
  es.filterMap (fun e => match e with | .cents v => some v | _ => none)

/-! ## Note history and prediction queue (VisualizerPro.tsx, lines 1455-1501)

Per frame: when time-domain audio is present and the fused pitch is accepted
(`pitchMidi` truthy and `clarity > 0.3`), the MIDI value is pushed onto
`midiHist` (capacity 128 via `shift`) and one pending prediction is dequeued
from `predQueue` (scoring it feeds the accumulators above, modelled
separately).  Afterwards — accepted or not, audio or not — a new prediction
is computed from the history and, if non-null, pushed onto `predQueue`.
`predQueue` itself has no capacity check anywhere. -/

/-- The cross-frame state of the predictor: `midiHist` and `predQueue`. -/
structure PredState where
  hist : List ℚ
  queue : List ℚ
deriving DecidableEq

/-- `midiHist.current.push(m); if (length > 128) shift()`. -/
def pushCapped (h : List ℚ) (m : ℚ) : List ℚ :=
  let h2 := h ++ [m]
  if 128 < h2.length then h2.tail else h2

/-- The acceptance block (lines 1455-1459): JS truthiness of `pitchMidi`
is "non-null and non-zero"; `predQueue.shift()` on a non-empty queue is
`tail` (and the code only shifts when the queue is non-empty, which `tail`
also satisfies vacuously on `[]`). -/
def acceptPitch (tdomPresent : Bool) (midi : Option ℚ) (clarity : ℚ)
    (st : PredState) : PredState :=
  if tdomPresent then
    match midi with
    | some m =>
        if m ≠ 0 ∧ (3 / 10 : ℚ) < clarity then ⟨pushCapped st.hist m, st.queue.tail⟩
        else st
    | none => st
  else st

/-- One whole frame of the predictor state (lines 1455-1501): acceptance
block, then `predicted = predictNextMidi(midiHist)` and, when non-null,
`predQueue.push(predicted)`. -/
def frameStepPred (tdomPresent : Bool) (midi : Option ℚ) (clarity : ℚ)
    (st : PredState) : PredState :=
  let st1 := acceptPitch tdomPresent midi clarity st
  match predictNextMidi st1.hist 1 with
  | some p => ⟨st1.hist, st1.queue ++ [p]⟩
  | none => st1

/-- `n` consecutive frames with no time-domain audio (the `tdom` branch is
skipped entirely, so nothing is accepted, but predictions are still pushed). -/
def idleFrames (n : ℕ) (st : PredState) : PredState :=
  (frameStepPred false none 0)^[n] st

/-! ## Swarm lifecycle (VisualizerPro.tsx, `drawSwarms`, lines 1820-1870)

Per frame: a new swarm may be pushed (forced when fewer than 2, probabilistic
when fewer than 5); when more than 2 exist, one random index may get
`alive = false`; then every swarm in the collection updates
`life = clamp01(lerp(life, alive ? 1 : 0, 0.02))`.  No statement anywhere
removes an element from `swarmsRef.current`. -/

/-- The lifecycle-relevant fields of a `Swarm`. -/
structure SwarmL where
  life : ℚ
  alive : Bool
deriving DecidableEq

/-- A freshly spawned swarm: `life: 0, alive: true`. -/
def newSwarmL : SwarmL := ⟨0, true⟩

/-- The per-swarm life update of line 1870:
`s.life = clamp01(lerp(s.life, s.alive ? 1 : 0, 0.02))`. -/
def stepLife (s : SwarmL) : SwarmL :=
  ⟨clamp01 (lerp s.life (if s.alive then 1 else 0) (2 / 100)), s.alive⟩

/-- The random draws of one frame that affect the collection: whether the
probabilistic spawn fires (`Math.random() < 0.006`), and which index the
probabilistic despawn picks, if it fires (`Math.random() < 0.003` with
`idx = ⌊Math.random()*length⌋`). -/
structure SwarmRand where
  doSpawn : Bool
  despawnIdx : Option ℕ

/-- The spawn check of lines 1821-1839: push a fresh swarm when fewer than 2
exist, or when fewer than 5 exist and the spawn draw fired. -/
def spawnStage (r : SwarmRand) (ss : List SwarmL) : List SwarmL :=
  if ss.length < 2 ∨ (ss.length < 5 ∧ r.doSpawn) then ss ++ [newSwarmL] else ss

/-- The despawn mark of lines 1840-1843: when more than 2 exist and the
despawn draw fired, set `alive = false` at the drawn index (nothing is
removed). -/
def despawnStage (r : SwarmRand) (ss1 : List SwarmL) : List SwarmL :=
  match r.despawnIdx with
  | some i =>
      if 2 < ss1.length then ss1.set i ⟨(ss1.getD i newSwarmL).life, false⟩
      else ss1
  | none => ss1

/-- One frame of the swarm collection (lines 1820-1870): spawn check on the
pre-frame length, then the despawn mark, then every swarm's life update. -/
def stepSwarmColl (r : SwarmRand) (ss : List SwarmL) : List SwarmL :=
  (despawnStage r (spawnStage r ss)).map stepLife

/-! ## Bass energy (VisualizerPro.tsx, lines 1532-1539) -/

/-- The rebiased per-bin power `Math.max(0, mag[i] + 140)`. -/
def binPower (mag : List ℚ) (i : ℕ) : ℚ := max 0 (mag.getD i 0 + 140)

/-- The bass-energy computation of lines 1532-1539: `hzPerBin = sr/2/bins`,
`maxBin = min(bins-1, ⌊150/hzPerBin⌋)`, then the mean of the rebiased power
over bins `0..maxBin` (the loop starts at `i = 0`). -/
def bassEnergy (mag : List ℚ) (sampleRate : ℚ) : ℚ :=
  let bins := mag.length
  let hzPerBin := sampleRate / 2 / (bins : ℚ)
  let maxBin := min (bins - 1) (⌊150 / hzPerBin⌋).toNat
  (((List.range (maxBin + 1)).map (fun i => binPower mag i)).sum) / ((maxBin : ℚ) + 1)

/-- Modelled from the spec words of claim C5 (the comparison definition for
the refinement check): the mean of the rebiased power over exactly the bins
whose frequency `k * (sampleRate/2/binCount)` lies in the band [20 Hz, 150 Hz].
This is what "the frequency bins covering 20–150 Hz" denotes under the
claim's own bin-to-Hz mapping. -/
def specBassEnergy (mag : List ℚ) (sampleRate : ℚ) : ℚ :=
  let hzPerBin := sampleRate / 2 / (mag.length : ℚ)
  let ks := (List.range mag.length).filter
    (fun (k : ℕ) => 20 ≤ (k : ℚ) * hzPerBin ∧ (k : ℚ) * hzPerBin ≤ 150)
  ((ks.map (fun k => binPower mag k)).sum) / (ks.length : ℚ)

/-! ## Key estimation (VisualizerPro.tsx, `estimateKeyFromFFT`, lines 2316-2358)

`estimateKeyFromFFT` first builds a 12-bin chroma histogram `bins` from the
magnitude array (a step involving `Math.log2`/`Math.round`, not needed by any
claim), then scores the 12 rotations of `bins` against the two Krumhansl
profiles and renders the winner.  The scoring-and-naming part is embedded
here over the chroma histogram, in exact rationals. -/

/-- `KS_MAJOR` (lines 1045-1047). -/
def KS_MAJOR : List ℚ :=
  [6.35, 2.23, 3.48, 2.33, 4.38, 4.09, 2.52, 5.19, 2.39, 3.66, 2.29, 2.88]

/-- `KS_MINOR` (lines 1048-1050). -/
def KS_MINOR : List ℚ :=
  [6.33, 2.68, 3.52, 5.38, 2.6, 3.53, 2.54, 4.75, 3.98, 2.69, 3.34, 3.17]

/-- The pitch-class names (`names` of estimateKeyFromFFT; also `NOTE_NAMES`
of pitch.ts). -/
def NOTE_NAMES : List String :=
  ["C", "C#", "D", "D#", "E", "F"] ++ ["F#", "G", "G#", "A", "A#", "B"]

/-- The dot product of one rotation, `score`'s inner loop:
`s = Σ_{i<12} bins[(i+shift)%12] * profile[i]`. -/
def keyScoreAt (bins profile : List ℚ) (shift : ℕ) : ℚ :=
  ((List.range 12).map (fun i => bins.getD ((i + shift) % 12) 0 * profile.getD i 0)).sum

/-- The running "keep the strictly larger value" scan shared by the three
argmax loops of the source (`detectPitchACF`, `simpleCepstrumPitch`,
`estimateKeyFromFFT.score`): fold the candidate indices, replacing the
accumulator whenever the candidate's value strictly exceeds the held value. -/
def maxFoldBy {α β : Type} [LinearOrder α] (emb : ℕ → β) (g : ℕ → α)
    (l : List ℕ) (acc : β × α) : β × α :=
  l.foldl (fun best lag => if best.2 < g lag then (emb lag, g lag) else best) acc

/-- `score(profile)`: the first shift in `0..11` attaining the maximal dot
product, with its value.  The source initialises `bestV = -Infinity`, so the
shift-0 score always replaces the initial value; the fold therefore starts
from `(0, score 0)` and scans shifts `1..11` with a strict comparison, which
selects exactly the same pair. -/
def bestProfileShift (bins profile : List ℚ) : ℕ × ℚ :=
  maxFoldBy (fun shift => shift) (fun shift => keyScoreAt bins profile shift)
    (List.range' 1 11) (0, keyScoreAt bins profile 0)

/-- The rotation-scoring and naming part of `estimateKeyFromFFT` (lines
2327-2357), over the chroma histogram `bins`:
`maj.val >= minr.val ? names[maj.key] + " major" : names[minr.key] + " minor"`. -/
def keyFromBins (bins : List ℚ) : String :=
  let maj := bestProfileShift bins KS_MAJOR
  let minr := bestProfileShift bins KS_MINOR
  if minr.2 ≤ maj.2 then NOTE_NAMES.getD maj.1 "" ++ " major"
  else NOTE_NAMES.getD minr.1 "" ++ " minor"

/-! ## Tempo estimation (VisualizerPro.tsx, `estimateBPM`, lines 2283-2314) -/

/-- The mean-centered series `x = series.map(v => v - mean)`. -/
def centeredSeries (series : List ℚ) : List ℚ :=
  let mean := series.sum / (series.length : ℚ)
  series.map (fun v => v - mean)

/-- `ac[lag] = Σ_{i<N-lag} x[i]*x[i+lag]`. -/
def acLagSum (x : List ℚ) (lag : ℕ) : ℚ :=
  ((List.range (x.length - lag)).map (fun i => x.getD i 0 * x.getD (i + lag) 0)).sum

/-- The BPM the search attributes to a lag: `60000 / Math.max(1, lag*frameMs)`. -/
def bpmOfLag (lag : ℕ) (frameMs : ℚ) : ℚ := 60000 / max 1 ((lag : ℚ) * frameMs)

/-- One iteration of the search loop of `estimateBPM` (lines 2301-2310):
skip the lag unless its `bpmOfLag` lies in `[minBPM, maxBPM]`; otherwise keep
the strictly larger `ac` value.  The source initialises `bestVal = -Infinity`,
modelled by the `Option` accumulator (any finite `ac` value strictly exceeds
`-Infinity`, so the first qualifying lag always replaces `none`). -/
def bpmStep (x : List ℚ) (minBPM maxBPM frameMs : ℚ) (best : Option (ℕ × ℚ))
    (lag : ℕ) : Option (ℕ × ℚ) :=
  if minBPM ≤ bpmOfLag lag frameMs ∧ bpmOfLag lag frameMs ≤ maxBPM then
    match best with
    | none => some (lag, acLagSum x lag)
    | some b => if b.2 < acLagSum x lag then some (lag, acLagSum x lag) else some b
  else best

/-- The search loop of `estimateBPM`: the autocorrelation array holds
`ac[lag]` for `1 ≤ lag < N/2` (so its last index is `(N-1)/2` in integer
terms), and the loop scans `lag = 8 .. ac.length-1`. -/
def bpmBestLag (series : List ℚ) (minBPM maxBPM frameMs : ℚ) : Option (ℕ × ℚ) :=
  (List.range' 8 ((series.length - 1) / 2 + 1 - 8)).foldl
    (bpmStep (centeredSeries series) minBPM maxBPM frameMs) none

/-- `estimateBPM` (lines 2283-2314): null when fewer than 128 samples, null
when no lag qualifies, else `60000 / Math.max(1, bestLag*frameMs)`. -/
def estimateBPM (series : List ℚ) (minBPM maxBPM frameMs : ℚ) : Option ℚ :=
  if series.length < 128 then none
  else
    match bpmBestLag series minBPM maxBPM frameMs with
    | none => none
    | some b => some (60000 / max 1 ((b.1 : ℚ) * frameMs))

/-! ## Autocorrelation pitch detection (src/audio/pitch.ts)

The de-mean / normalize / lag-scan core of `detectPitchACF` uses only field
operations, `abs`, `max` and comparisons, so it is defined over any linear
ordered field; the repository runs it on JS numbers (modelled ℝ), and the
ℚ instance lets concrete runs be computed by `decide` and transported to ℝ. -/

section AcfCore

variable {α : Type} [LinearOrderedField α]

/-- Lines 117-124 of pitch.ts: remove DC, then divide by the running maximum
of absolute values started at `1e-9`. -/
def acfBuf (time : List α) : List α :=
  let mean := time.sum / (time.length : α)
  let centered := time.map (fun v => v - mean)
  let maxAbs := centered.foldl (fun m v => max m |v|) (1 / 1000000000)
  centered.map (fun v => v / maxAbs)

/-- The normalized autocorrelation of one lag (lines 130-135):
`Σ_{i<len-lag} buf[i]*buf[i+lag] / (len - lag)`.  For `lag ≥ len` the JS sum
is empty and the value (`0/0 = NaN` or `0/negative = -0`) never wins the
strict comparison below; here the value is 0, which never wins it either. -/
def acfVal (buf : List α) (lag : ℕ) : α :=
  (((List.range (buf.length - lag)).map (fun i => buf.getD i 0 * buf.getD (i + lag) 0)).sum) /
    ((buf.length : α) - (lag : α))

/-- The lag scan (lines 128-137): `bestLag = -1, bestVal = 0`, update on a
strictly larger value, over `lag = minLag .. maxLag`. -/
def acfBest (buf : List α) (minLag maxLag : ℕ) : ℤ × α :=
  maxFoldBy (fun lag => (lag : ℤ)) (fun lag => acfVal buf lag)
    (List.range' minLag (maxLag + 1 - minLag)) (-1, 0)

end AcfCore

/-! ## Pitch results and the two estimators (src/audio/pitch.ts) -/

/-- `PitchResult` of pitch.ts (`clarity` is the confidence). -/
structure PitchResult where
  frequency : Option ℝ
  midi : Option ℝ
  note : Option String
  clarity : ℝ

/-- The all-null "no pitch detected" result with confidence 0. -/
def noPitch : PitchResult := ⟨none, none, none, 0⟩

/-- `freqToMidi` of pitch.ts: `69 + 12*Math.log2(f/440)`. -/
noncomputable def freqToMidi (f : ℝ) : ℝ := 69 + 12 * Real.logb 2 (f / 440)

/-- `midiToFreq` of pitch.ts: `440 * 2^((m-69)/12)`. -/
noncomputable def midiToFreq (m : ℝ) : ℝ := 440 * (2 : ℝ) ^ ((m - 69) / 12)

/-- `midiToNoteName` of pitch.ts: `n = Math.round(m)` (Mathlib's `round` is
also round-half-up), pitch class `(n % 12 + 12) % 12` (with Lean's `emod`
this equals the JS remainder dance), octave `Math.floor(n/12) - 1`. -/
noncomputable def midiToNoteName (m : ℝ) : String :=
  let n := round m
  NOTE_NAMES.getD ((n % 12 + 12) % 12).toNat "" ++ toString (⌊(n : ℚ) / 12⌋ - 1)

/-- `detectPitchACF` of pitch.ts (lines 116-147).  `minLag`/`maxLag` are
`Math.floor(sampleRate/maxFreq)`/`Math.floor(sampleRate/minFreq)`; the
`Int.toNat` is exact for the physically meaningful `sampleRate > 0` (for a
negative rate the JS loop reads out of bounds and detects nothing; the claims
are stated for positive rates). -/
noncomputable def detectPitchACF (time : List ℝ) (sampleRate minFreq maxFreq : ℝ) :
    PitchResult :=
  let buf := acfBuf time
  let minLag := (⌊sampleRate / maxFreq⌋).toNat
  let maxLag := (⌊sampleRate / minFreq⌋).toNat
  let best := acfBest buf minLag maxLag
  if best.1 ≤ 0 then noPitch
  else
    let freq := sampleRate / (best.1 : ℝ)
    let midi := freqToMidi freq
    ⟨some freq, some midi, some (midiToNoteName midi), min 1 (max 0 best.2)⟩

/-- The cepstrum array built inside `simpleCepstrumPitch` (lines 152-161):
`logMag[i] = Math.log(1e-12 + Math.max(0, mag[i]))` (note: no `+140` bias
here, unlike `computeCepstrum` of VisualizerPro.tsx), then the cosine-only
transform `cep[k] = Σ_n logMag[n]*cos(2πkn/N)`. -/
noncomputable def cepstrumPitchArr (mag : List ℝ) : List ℝ :=
  let N := mag.length
  let logMag := mag.map (fun v => Real.log (1 / 10 ^ 12 + max 0 v))
  (List.range N).map (fun k =>
    ((List.range N).map (fun n =>
      logMag.getD n 0 * Real.cos (2 * Real.pi * (k : ℝ) * (n : ℝ) / (N : ℝ)))).sum)

/-- `simpleCepstrumPitch` of pitch.ts (lines 151-175): peak search over
quefrency `qMin = ⌊sr/500⌋ .. qMax = min(N-1, ⌊sr/50⌋)` with
`bestK = -1, bestV = -1e9`; null fields when `bestK < 1`, else frequency
`sr/bestK` and the saturating confidence `max(0, min(1, bestV/(1000+|bestV|)))`.
As with `detectPitchACF`, `Int.toNat` on `qMin` is exact for `sampleRate ≥ 0`. -/
noncomputable def simpleCepstrumPitch (mag : List ℝ) (sampleRate : ℝ) : PitchResult :=
  let N := mag.length
  let cep := cepstrumPitchArr mag
  let qMin : ℤ := ⌊sampleRate / 500⌋
  let qMax : ℤ := min ((N : ℤ) - 1) ⌊sampleRate / 50⌋
  let best := maxFoldBy (fun k => (k : ℤ)) (fun k => cep.getD k 0)
    (List.range' qMin.toNat (qMax + 1 - qMin).toNat) (-1, -(10 ^ 9))
  if best.1 < 1 then noPitch
  else
    let freq := sampleRate / (best.1 : ℝ)
    let midi := freqToMidi freq
    ⟨some freq, some midi, some (midiToNoteName midi),
      max 0 (min 1 ((best.2 - 0) / (1000 + |best.2|)))⟩

/-- The `r2` of the frame loop (lines 1446-1448): the cepstrum estimate when
a magnitude array is present, else the literal
`{frequency: null, midi: null, note: null, clarity: 0}`. -/
noncomputable def cepsOrNull (mag : Option (List ℝ)) (sampleRate : ℝ) : PitchResult :=
  match mag with
  | some m => simpleCepstrumPitch m sampleRate
  | none => noPitch

/-- The per-frame fusion (VisualizerPro.tsx, lines 1442-1453): `r1` from the
autocorrelation estimator on the time-domain buffer, `r2` from the cepstrum
estimator when a magnitude array is present (else the literal null result),
and `best = r1.clarity >= r2.clarity ? r1 : r2`. -/
noncomputable def fusePitch (tdom : List ℝ) (mag : Option (List ℝ)) (sampleRate : ℝ) :
    PitchResult :=
  if (detectPitchACF tdom sampleRate 50 1000).clarity ≥ (cepsOrNull mag sampleRate).clarity
  then detectPitchACF tdom sampleRate 50 1000
  else cepsOrNull mag sampleRate

/-! ## Boid flocking (src/visuals/Boids.ts, `stepBoids`) -/

/-- `Boid` of Boids.ts. -/
structure Boid where
  x : ℝ
  y : ℝ
  vx : ℝ
  vy : ℝ
  hue : ℝ

/-- `BoidParams` of Boids.ts. -/
structure BoidParams where
  count : ℕ
  maxSpeed : ℝ
  align : ℝ
  coh : ℝ
  sep : ℝ
  range : ℝ

/-- The neighbor-scan accumulator of `stepBoids` (`n, ax, ay, cx, cy, sx, sy`). -/
structure NAcc where
  n : ℕ
  ax : ℝ
  ay : ℝ
  cx : ℝ
  cy : ℝ
  sx : ℝ
  sy : ℝ

/-- The inner `j` loop (lines 34-49): skip `j == i`; within `range²`, sum
velocities (alignment), positions (cohesion) and inverse-square repulsion
with the `Math.max(1e-3, d2)` floor (separation). -/
noncomputable def scanNeighbors (cur : List Boid) (i : ℕ) (b : Boid) (range : ℝ) : NAcc :=
  cur.enum.foldl
    (fun a jo =>
      if jo.1 = i then a
      else
        let o := jo.2
        let dx := o.x - b.x
        let dy := o.y - b.y
        let d2 := dx * dx + dy * dy
        if d2 < range * range then
          ⟨a.n + 1, a.ax + o.vx, a.ay + o.vy, a.cx + o.x, a.cy + o.y,
            a.sx - dx / max (1 / 1000) d2, a.sy - dy / max (1 / 1000) d2⟩
        else a)
    ⟨0, 0, 0, 0, 0, 0, 0⟩

/-- The speed clamp (lines 71-76): `sp = Math.hypot(vx, vy)`; when
`sp > maxSpeed`, rescale both components by `maxSpeed/sp`. -/
noncomputable def clampSpeed (vx vy maxSpeed : ℝ) : ℝ × ℝ :=
  let sp := Real.sqrt (vx ^ 2 + vy ^ 2)
  if maxSpeed < sp then (vx / sp * maxSpeed, vy / sp * maxSpeed) else (vx, vy)

/-- The toroidal wrap of one coordinate (lines 79-80):
`if (z < 0) z += w; if (z > w) z -= w;` — two sequential conditionals. -/
noncomputable def wrapCoord (z w : ℝ) : ℝ :=
  let z1 := if z < 0 then z + w else z
  if w < z1 then z1 - w else z1

/-- The update of boid `i` against the current array contents (the source
mutates the array in place, so boids `j < i` are already updated): neighbor
accumulation, the `n > 0` scaling, target attraction (weight 0.0008), bass
push (weight 0.00002), speed clamp, integration, wrap. -/
noncomputable def updateBoid (cur : List Boid) (i : ℕ) (W H : ℝ) (p : BoidParams)
    (target : Option (ℝ × ℝ)) (bassPush : ℝ) : Boid :=
  let b := cur.getD i ⟨0, 0, 0, 0, 0⟩
  let a := scanNeighbors cur i b p.range
  let ax := if 0 < a.n then (a.ax / (a.n : ℝ) - b.vx) * p.align else a.ax
  let ay := if 0 < a.n then (a.ay / (a.n : ℝ) - b.vy) * p.align else a.ay
  let cx := if 0 < a.n then (a.cx / (a.n : ℝ) - b.x) * p.coh else a.cx
  let cy := if 0 < a.n then (a.cy / (a.n : ℝ) - b.y) * p.coh else a.cy
  let sx := if 0 < a.n then a.sx * p.sep else a.sx
  let sy := if 0 < a.n then a.sy * p.sep else a.sy
  let tvx := match target with | some t => (t.1 - b.x) * (8 / 10000) | none => 0
  let tvy := match target with | some t => (t.2 - b.y) * (8 / 10000) | none => 0
  let vx1 := b.vx + ax + sx + cx + tvx + (b.x - W / 2) * (2 / 100000) * bassPush
  let vy1 := b.vy + ay + sy + cy + tvy + (b.y - H / 2) * (2 / 100000) * bassPush
  let v2 := clampSpeed vx1 vy1 p.maxSpeed
  ⟨wrapCoord (b.x + v2.1) W, wrapCoord (b.y + v2.2) H, v2.1, v2.2, b.hue⟩

/-- `stepBoids` (lines 27-82): update each index in order, in place. -/
noncomputable def stepBoids (boids : List Boid) (W H : ℝ) (p : BoidParams)
    (target : Option (ℝ × ℝ)) (bassPush : ℝ) : List Boid :=
  (List.range boids.length).foldl
    (fun cur i => cur.set i (updateBoid cur i W H p target bassPush)) boids

/-- A run of frames, each with its own target and bass push. -/
noncomputable def stepBoidsRun (frames : List (Option (ℝ × ℝ) × ℝ))
    (boids : List Boid) (W H : ℝ) (p : BoidParams) : List Boid :=
  frames.foldl (fun cur f => stepBoids cur W H p f.1 f.2) boids

/-- Position inside the closed canvas box. -/
def inCanvas (W H : ℝ) (b : Boid) : Prop :=
  0 ≤ b.x ∧ b.x ≤ W ∧ 0 ≤ b.y ∧ b.y ≤ H

/-- All-or-nothing nullness of a pitch result: either every nullable field is
null and the confidence is 0, or no nullable field is null. -/
def pitchAllOrNothing (r : PitchResult) : Prop :=
  (r.frequency = none ∧ r.midi = none ∧ r.note = none ∧ r.clarity = 0) ∨
  (r.frequency ≠ none ∧ r.midi ≠ none ∧ r.note ≠ none)

/-!
# Theorems

Helper lemmas first, then one theorem per claim (with its witness and, for
corrected claims, its counterexample).
-/

/-! ## Helper lemmas about the predictor -/

theorem predictNextMidi_isSome (h : List ℚ) (hor : ℚ) (hlen : 3 ≤ h.length) :
    ∃ v, predictNextMidi h hor = some v := by
  have hx : ¬ (h.drop (h.length - 8)).length < 3 := by
    simp only [List.length_drop]; omega
  simp only [predictNextMidi, hx, if_false]
  exact ⟨_, rfl⟩

/-! ## Generic list access lemmas -/

theorem list_getD_set_self {α : Type} (l : List α) (i : ℕ) (a d : α) (h : i < l.length) :
    (l.set i a).getD i d = a := by
  rw [List.getD_eq_getElem _ _ (by simpa using h)]
  simp [List.getElem_set]

theorem list_getD_set_ne {α : Type} (l : List α) (i j : ℕ) (a d : α) (hij : i ≠ j)
    (h : j < l.length) : (l.set i a).getD j d = l.getD j d := by
  rw [List.getD_eq_getElem _ _ (by simpa using h), List.getD_eq_getElem _ _ h]
  simp [List.getElem_set, hij]

theorem list_getD_append {α : Type} (l l2 : List α) (i : ℕ) (d : α) (h : i < l.length) :
    (l ++ l2).getD i d = l.getD i d := by
  rw [List.getD_eq_getElem _ _ (by simp; omega), List.getD_eq_getElem _ _ h]
  exact List.getElem_append_left _

theorem list_getD_map {α β : Type} (f : α → β) (l : List α) (i : ℕ) (d : α) (db : β)
    (h : i < l.length) : (l.map f).getD i db = f (l.getD i d) := by
  rw [List.getD_eq_getElem _ _ (by simpa using h), List.getD_eq_getElem _ _ h]
  simp

/-! ## Helper lemmas about the error accumulators -/

theorem accFeed_foldl (vs : List ℚ) : ∀ (m : ℚ) (c : ℕ), vs ≠ [] →
    vs.foldl accFeed ⟨m, c⟩ =
      ⟨(m * (c : ℚ) + vs.sum) / ((c : ℚ) + (vs.length : ℚ)), c + vs.length⟩ := by
  induction vs with
  | nil => intro m c hne; exact absurd rfl hne
  | cons v t ih =>
      intro m c _
      rcases List.eq_nil_or_concat t with ht | _
      · subst ht
        simp [accFeed, List.foldl]
      · have htne : t ≠ [] := by
          rintro rfl
          simp_all
        have step : List.foldl accFeed ⟨m, c⟩ (v :: t) =
            List.foldl accFeed ⟨(m * (c : ℚ) + v) / ((c : ℚ) + 1), c + 1⟩ t := rfl
        rw [step, ih _ _ htne]
        have hc1 : ((c : ℚ) + 1) ≠ 0 := by positivity
        simp only [ErrAcc.mk.injEq]
        refine ⟨?_, by simp [List.length_cons]; omega⟩
        push_cast
        field_simp
        ring

theorem accFeed_run (vs : List ℚ) :
    vs.foldl accFeed ⟨0, 0⟩ = ⟨vs.sum / (vs.length : ℚ), vs.length⟩ := by
  rcases List.eq_nil_or_concat vs with h | _
  · subst h; simp
  · have hne : vs ≠ [] := by rintro rfl; simp_all
    rw [accFeed_foldl vs 0 0 hne]
    norm_num

theorem errStep_semi (es : List ErrSample) : ∀ s : ErrStats,
    (es.foldl errStep s).semi = (semiSamples es).foldl accFeed s.semi := by
  induction es with
  | nil => intro s; rfl
  | cons e t ih => intro s; cases e <;> simp [errStep, semiSamples, ih]

theorem errStep_hz (es : List ErrSample) : ∀ s : ErrStats,
    (es.foldl errStep s).hz = (hzSamples es).foldl accFeed s.hz := by
  induction es with
  | nil => intro s; rfl
  | cons e t ih => intro s; cases e <;> simp [errStep, hzSamples, ih]

theorem errStep_cents (es : List ErrSample) : ∀ s : ErrStats,
    (es.foldl errStep s).cents = (centsSamples es).foldl accFeed s.cents := by
  induction es with
  | nil => intro s; rfl
  | cons e t ih => intro s; cases e <;> simp [errStep, centsSamples, ih]

/-! ## Claims C3, C8, C10, C1 -/

/-- Claim C3: `predictNextMidi` returns null on histories of fewer than 3
notes; on histories of at least 3 notes it uses only the last 8, sorts the
consecutive differences, takes the element at index `⌊len/2⌋` of the sorted
list as the median interval, and returns `lastNote + median*horizon`; in
particular `predictNextMidi [60,62,64] = some 66` and
`predictNextMidi [60,61] = none`. -/
theorem claim_C3 :
    (∀ (h : List ℚ) (hor : ℚ), h.length < 3 → predictNextMidi h hor = none) ∧
    (∀ (h : List ℚ) (hor : ℚ), 3 ≤ h.length →
      predictNextMidi h hor = predictNextMidi (h.drop (h.length - 8)) hor) ∧
    (∀ (h : List ℚ) (hor : ℚ) (sorted : List ℚ), 3 ≤ h.length →
      sorted.Perm (((h.drop (h.length - 8)).zip (h.drop (h.length - 8)).tail).map
        (fun p => p.2 - p.1)) →
      sorted.Sorted (· ≤ ·) →
      predictNextMidi h hor =
        some ((h.drop (h.length - 8)).getD ((h.drop (h.length - 8)).length - 1) 0 +
          sorted.getD (sorted.length / 2) 0 * hor)) ∧
    predictNextMidi [60, 62, 64] 1 = some 66 ∧
    predictNextMidi [60, 61] 1 = none := by
  refine ⟨?_, ?_, ?_,
    by norm_num [predictNextMidi, List.insertionSort, List.orderedInsert],
    by norm_num [predictNextMidi]⟩
  · intro h hor hlt
    have hx : (h.drop (h.length - 8)).length < 3 := by
      simp only [List.length_drop]; omega
    simp only [predictNextMidi, hx, if_true]
  · intro h hor _
    have hdd : (h.drop (h.length - 8)).drop ((h.drop (h.length - 8)).length - 8) =
        h.drop (h.length - 8) := by
      have : (h.drop (h.length - 8)).length - 8 = 0 := by
        simp only [List.length_drop]; omega
      rw [this, List.drop_zero]
    simp only [predictNextMidi, hdd]
  · intro h hor sorted hlen hperm hsorted
    have hins : sorted =
        List.insertionSort (· ≤ ·)
          (((h.drop (h.length - 8)).zip (h.drop (h.length - 8)).tail).map
            (fun p => p.2 - p.1)) := by
      refine List.eq_of_perm_of_sorted ?_ hsorted (List.sorted_insertionSort _ _)
      exact hperm.trans (List.perm_insertionSort _ _).symm
    have hx : ¬ (h.drop (h.length - 8)).length < 3 := by
      simp only [List.length_drop]; omega
    simp only [predictNextMidi, hx, if_false, hins]

/-- Witness for C3 at a concrete input: a two-note history yields no
prediction. -/
theorem claim_C3_witness : predictNextMidi [7, 9] 1 = none :=
  claim_C3.1 [7, 9] 1 (by decide)

/-- Claim C8: each error accumulator updates by
`mean' = (mean*count + sample)/(count+1)`, `count' = count+1`; consequently a
whole session leaves each accumulator holding exactly the mean of its own
samples (and their number), independently of how the three kinds of feeds
interleave; and no count ever decreases as the session extends. -/
theorem claim_C8 :
    (∀ (a : ErrAcc) (v : ℚ),
      accFeed a v = ⟨(a.mean * (a.count : ℚ) + v) / ((a.count : ℚ) + 1), a.count + 1⟩) ∧
    (∀ es : List ErrSample,
      (runErrStats es).semi =
        ⟨(semiSamples es).sum / ((semiSamples es).length : ℚ), (semiSamples es).length⟩ ∧
      (runErrStats es).hz =
        ⟨(hzSamples es).sum / ((hzSamples es).length : ℚ), (hzSamples es).length⟩ ∧
      (runErrStats es).cents =
        ⟨(centsSamples es).sum / ((centsSamples es).length : ℚ), (centsSamples es).length⟩) ∧
    (∀ (es more : List ErrSample),
      (runErrStats es).semi.count ≤ (runErrStats (es ++ more)).semi.count ∧
      (runErrStats es).hz.count ≤ (runErrStats (es ++ more)).hz.count ∧
      (runErrStats es).cents.count ≤ (runErrStats (es ++ more)).cents.count) := by
  have hrun : ∀ es : List ErrSample,
      (runErrStats es).semi = ⟨(semiSamples es).sum / ((semiSamples es).length : ℚ),
        (semiSamples es).length⟩ ∧
      (runErrStats es).hz = ⟨(hzSamples es).sum / ((hzSamples es).length : ℚ),
        (hzSamples es).length⟩ ∧
      (runErrStats es).cents = ⟨(centsSamples es).sum / ((centsSamples es).length : ℚ),
        (centsSamples es).length⟩ := by
    intro es
    refine ⟨?_, ?_, ?_⟩
    · rw [runErrStats, errStep_semi es errInit]; exact accFeed_run _
    · rw [runErrStats, errStep_hz es errInit]; exact accFeed_run _
    · rw [runErrStats, errStep_cents es errInit]; exact accFeed_run _
  refine ⟨fun a v => rfl, hrun, ?_⟩
  intro es more
  have h1 := hrun es
  have h2 := hrun (es ++ more)
  rw [h1.1, h1.2.1, h1.2.2, h2.1, h2.2.1, h2.2.2]
  simp only [semiSamples, hzSamples, centsSamples, List.filterMap_append,
    List.length_append]
  omega

/-- Claim C10: per frame the prediction queue changes length by at most one
in each direction; the note history keeps its 128 cap; a frame with no
accepted pitch but a predicting history (≥ 3 notes) grows the queue by
exactly one; hence over `n` such frames the queue grows by exactly `n` and
exceeds any fixed bound. -/
theorem claim_C10 :
    (∀ (t : Bool) (mi : Option ℚ) (cl : ℚ) (st : PredState),
      (frameStepPred t mi cl st).queue.length ≤ st.queue.length + 1 ∧
      st.queue.length ≤ (frameStepPred t mi cl st).queue.length + 1) ∧
    (∀ (t : Bool) (mi : Option ℚ) (cl : ℚ) (st : PredState),
      st.hist.length ≤ 128 → (frameStepPred t mi cl st).hist.length ≤ 128) ∧
    (∀ st : PredState, 3 ≤ st.hist.length →
      (frameStepPred false none 0 st).hist = st.hist ∧
      (frameStepPred false none 0 st).queue.length = st.queue.length + 1) ∧
    (∀ (st : PredState) (n : ℕ), 3 ≤ st.hist.length →
      (idleFrames n st).queue.length = st.queue.length + n) ∧
    (∀ (B : ℕ) (st : PredState), 3 ≤ st.hist.length →
      ∃ n, B < (idleFrames n st).queue.length) := by
  have hacc : ∀ (t : Bool) (mi : Option ℚ) (cl : ℚ) (st : PredState),
      acceptPitch t mi cl st = st ∨
      ∃ m, acceptPitch t mi cl st = ⟨pushCapped st.hist m, st.queue.tail⟩ := by
    intro t mi cl st
    cases t with
    | false => exact Or.inl rfl
    | true =>
        cases mi with
        | none => exact Or.inl rfl
        | some m =>
            by_cases hc : m ≠ 0 ∧ (3 / 10 : ℚ) < cl
            · exact Or.inr ⟨m, by simp [acceptPitch, hc]⟩
            · exact Or.inl (by simp [acceptPitch, hc])
  have hstep : ∀ (t : Bool) (mi : Option ℚ) (cl : ℚ) (st : PredState),
      ∃ st1 : PredState,
        (st1 = st ∨ ∃ m, st1 = ⟨pushCapped st.hist m, st.queue.tail⟩) ∧
        (frameStepPred t mi cl st = st1 ∨
          ∃ p, frameStepPred t mi cl st = ⟨st1.hist, st1.queue ++ [p]⟩) := by
    intro t mi cl st
    refine ⟨acceptPitch t mi cl st, hacc t mi cl st, ?_⟩
    have hfs : frameStepPred t mi cl st =
        match predictNextMidi (acceptPitch t mi cl st).hist 1 with
        | some p => ⟨(acceptPitch t mi cl st).hist, (acceptPitch t mi cl st).queue ++ [p]⟩
        | none => acceptPitch t mi cl st := rfl
    rw [hfs]
    cases hp : predictNextMidi (acceptPitch t mi cl st).hist 1 with
    | none => exact Or.inl rfl
    | some p => exact Or.inr ⟨p, rfl⟩
  have hidle : ∀ st : PredState, 3 ≤ st.hist.length →
      (frameStepPred false none 0 st).hist = st.hist ∧
      (frameStepPred false none 0 st).queue.length = st.queue.length + 1 := by
    intro st hlen
    obtain ⟨v, hv⟩ := predictNextMidi_isSome st.hist 1 hlen
    have hfs : frameStepPred false none 0 st =
        match predictNextMidi st.hist 1 with
        | some p => ⟨st.hist, st.queue ++ [p]⟩
        | none => st := rfl
    rw [hfs, hv]
    simp
  have hiter : ∀ (st : PredState) (n : ℕ), 3 ≤ st.hist.length →
      (idleFrames n st).queue.length = st.queue.length + n := by
    intro st n hlen
    induction n generalizing st with
    | zero => simp [idleFrames]
    | succ k ih =>
        have hone := hidle st hlen
        have hlen1 : 3 ≤ (frameStepPred false none 0 st).hist.length := by
          rw [hone.1]; exact hlen
        have hstep1 : idleFrames (k + 1) st = idleFrames k (frameStepPred false none 0 st) := by
          simp [idleFrames, Function.iterate_succ_apply]
        rw [hstep1, ih _ hlen1, hone.2]
        omega
  refine ⟨?_, ?_, hidle, hiter, ?_⟩
  · intro t mi cl st
    obtain ⟨st1, h1, h2⟩ := hstep t mi cl st
    have hq1 : st1.queue.length = st.queue.length ∨
        st1.queue.length = st.queue.length - 1 := by
      rcases h1 with h | ⟨m, h⟩
      · left; rw [h]
      · right; rw [h]; simp [List.length_tail]
    rcases h2 with h | ⟨p, h⟩ <;> rw [h] <;> rcases hq1 with hq | hq <;>
      simp [List.length_append, hq] <;> omega
  · intro t mi cl st hcap
    obtain ⟨st1, h1, h2⟩ := hstep t mi cl st
    have hh1 : st1.hist.length ≤ 128 := by
      rcases h1 with h | ⟨m, h⟩
      · rw [h]; exact hcap
      · rw [h]
        simp only [pushCapped]
        split
        · simp [List.length_tail]; omega
        · next hgt => simp at hgt ⊢; omega
    rcases h2 with h | ⟨p, h⟩ <;> rw [h] <;> exact hh1
  · intro B st hlen
    exact ⟨B + 1, by rw [hiter st (B + 1) hlen]; omega⟩

/-- Witness for C10 at a concrete input: starting from the history
`[60, 62, 64]` and an empty queue, five audio-less frames leave a queue of
length five. -/
theorem claim_C10_witness :
    (idleFrames 5 ⟨[60, 62, 64], []⟩).queue.length = 0 + 5 :=
  (claim_C10.2.2.2.1 ⟨[60, 62, 64], []⟩ 5 (by decide))

/-- Claim C1 (amended): once a swarm has `alive = false` its life decays
exponentially toward 0 (`life' = (49/50)·life` inside [0,1]); and no frame
ever removes a swarm from the active collection — each pre-frame swarm is
still present at its index afterwards (possibly marked dead), whatever the
spawn/despawn draws.  In particular a swarm whose life has decayed to 0 is
not purged (the purge claimed by the spec does not exist in the code). -/
theorem claim_C1 :
    (∀ s : SwarmL, s.alive = false → (stepLife s).life = clamp01 ((49 / 50) * s.life)) ∧
    (∀ s : SwarmL, s.alive = false → 0 ≤ s.life → s.life ≤ 1 →
      (stepLife s).life = (49 / 50) * s.life) ∧
    (∀ (r : SwarmRand) (ss : List SwarmL), ss.length ≤ (stepSwarmColl r ss).length) ∧
    (∀ (r : SwarmRand) (ss : List SwarmL) (i : ℕ), i < ss.length →
      (stepSwarmColl r ss).getD i newSwarmL = stepLife (ss.getD i newSwarmL) ∨
      (stepSwarmColl r ss).getD i newSwarmL =
        stepLife ⟨(ss.getD i newSwarmL).life, false⟩) := by
  have hlife : ∀ s : SwarmL, s.alive = false →
      (stepLife s).life = clamp01 ((49 / 50) * s.life) := by
    intro s hdead
    simp only [stepLife, lerp, hdead, Bool.false_eq_true, if_false]
    congr 1
    ring
  refine ⟨hlife, ?_, ?_, ?_⟩
  · intro s hdead h0 h1
    rw [hlife s hdead]
    have hle : (49 / 50 : ℚ) * s.life ≤ 1 := by nlinarith
    have hge : (0 : ℚ) ≤ (49 / 50 : ℚ) * s.life := by nlinarith
    rw [clamp01, min_eq_right hle, max_eq_right hge]
  · intro r ss
    have h1 : ss.length ≤ (spawnStage r ss).length := by
      unfold spawnStage; split <;> simp
    have h2 : (despawnStage r (spawnStage r ss)).length = (spawnStage r ss).length := by
      unfold despawnStage
      cases r.despawnIdx with
      | none => rfl
      | some j => dsimp only; split <;> simp
    unfold stepSwarmColl
    rw [List.length_map, h2]
    exact h1
  · intro r ss i hi
    have hspawn_len : i < (spawnStage r ss).length := by
      unfold spawnStage; split
      · simp; omega
      · exact hi
    have hspawn_getD : (spawnStage r ss).getD i newSwarmL = ss.getD i newSwarmL := by
      unfold spawnStage; split
      · exact list_getD_append _ _ _ _ hi
      · rfl
    have hstep : stepSwarmColl r ss = (despawnStage r (spawnStage r ss)).map stepLife := rfl
    have hdesp : despawnStage r (spawnStage r ss) = spawnStage r ss ∨
        ∃ j, despawnStage r (spawnStage r ss) =
          (spawnStage r ss).set j ⟨((spawnStage r ss).getD j newSwarmL).life, false⟩ := by
      unfold despawnStage
      cases r.despawnIdx with
      | none => exact Or.inl rfl
      | some j =>
          dsimp only
          split
          · exact Or.inr ⟨j, rfl⟩
          · exact Or.inl rfl
    rcases hdesp with hd | ⟨j, hd⟩
    · left
      rw [hstep, hd, list_getD_map stepLife _ _ newSwarmL _ hspawn_len, hspawn_getD]
    · by_cases hij : j = i
      · subst hij
        right
        rw [hstep, hd,
          list_getD_map stepLife _ _ newSwarmL _ (by rw [List.length_set]; exact hspawn_len),
          list_getD_set_self _ _ _ _ hspawn_len, hspawn_getD]
      · left
        rw [hstep, hd,
          list_getD_map stepLife _ _ newSwarmL _ (by rw [List.length_set]; exact hspawn_len),
          list_getD_set_ne _ _ _ _ _ hij hspawn_len, hspawn_getD]

/-- Witness for C1 at a concrete input: a dead swarm at life 1/2 decays to
49/100. -/
theorem claim_C1_witness : (stepLife ⟨1 / 2, false⟩).life = (49 / 50) * (1 / 2) :=
  claim_C1.2.1 ⟨1 / 2, false⟩ rfl (by norm_num) (by norm_num)

/-- Counterexample for C1 as stated: a swarm with `alive = false` whose life
has already decayed to 0 is still in the collection after the frame (at full
length, unchanged), not purged. -/
theorem claim_C1_counterexample :
    (stepSwarmColl ⟨false, none⟩ [⟨0, false⟩, ⟨1, true⟩, ⟨1, true⟩]).length = 3 ∧
    (stepSwarmColl ⟨false, none⟩ [⟨0, false⟩, ⟨1, true⟩, ⟨1, true⟩]).getD 0 newSwarmL =
      ⟨0, false⟩ := by
  norm_num [stepSwarmColl, despawnStage, spawnStage, stepLife, clamp01, lerp]

/-! ## The shared argmax-scan lemma -/

theorem maxFoldBy_spec {α β : Type} [LinearOrder α] (emb : ℕ → β) (g : ℕ → α)
    (l : List ℕ) : ∀ acc : β × α,
    (maxFoldBy emb g l acc = acc ∨
      ∃ lag, lag ∈ l ∧ maxFoldBy emb g l acc = (emb lag, g lag) ∧ acc.2 < g lag) ∧
    acc.2 ≤ (maxFoldBy emb g l acc).2 ∧
    ∀ j ∈ l, g j ≤ (maxFoldBy emb g l acc).2 := by
  induction l with
  | nil => intro acc; exact ⟨Or.inl rfl, le_refl _, by simp⟩
  | cons a t ih =>
      intro acc
      have hstep : maxFoldBy emb g (a :: t) acc =
          maxFoldBy emb g t (if acc.2 < g a then (emb a, g a) else acc) := rfl
      by_cases hcmp : acc.2 < g a
      · obtain ⟨hd, hle, hall⟩ := ih (emb a, g a)
        rw [hstep, if_pos hcmp]
        refine ⟨?_, le_trans (le_of_lt hcmp) hle, ?_⟩
        · rcases hd with hd | ⟨lag, hmem, heq, hlt⟩
          · exact Or.inr ⟨a, List.mem_cons_self a t, hd, hcmp⟩
          · exact Or.inr ⟨lag, List.mem_cons_of_mem a hmem, heq,
              lt_trans hcmp hlt⟩
        · intro j hj
          rcases List.mem_cons.mp hj with rfl | hj
          · exact hle
          · exact hall j hj
      · obtain ⟨hd, hle, hall⟩ := ih acc
        rw [hstep, if_neg hcmp]
        refine ⟨?_, hle, ?_⟩
        · rcases hd with hd | ⟨lag, hmem, heq, hlt⟩
          · exact Or.inl hd
          · exact Or.inr ⟨lag, List.mem_cons_of_mem a hmem, heq, hlt⟩
        · intro j hj
          rcases List.mem_cons.mp hj with rfl | hj
          · exact le_trans (le_of_not_lt hcmp) hle
          · exact hall j hj

/-! ## Claim C5 -/

theorem range_filter_le (n m : ℕ) :
    (List.range n).filter (fun k => decide (k ≤ m)) = List.range (min n (m + 1)) := by
  induction n with
  | zero => rfl
  | succ n ih =>
      rw [List.range_succ, List.filter_append, ih]
      by_cases h : n ≤ m
      · have h1 : min n (m + 1) = n := by omega
        have h2 : min (n + 1) (m + 1) = n + 1 := by omega
        simp [h1, h2, List.range_succ, h]
      · have h1 : min n (m + 1) = m + 1 := by omega
        have h2 : min (n + 1) (m + 1) = m + 1 := by omega
        simp [h1, h2, h]

theorem mul_le_150_iff (h : ℚ) (hpos : 0 < h) (k : ℕ) :
    ((k : ℚ) * h ≤ 150) ↔ k ≤ (⌊(150 : ℚ) / h⌋).toNat := by
  have hfl : (0 : ℤ) ≤ ⌊(150 : ℚ) / h⌋ :=
    Int.floor_nonneg.mpr (div_nonneg (by norm_num) (le_of_lt hpos))
  rw [← le_div_iff₀ hpos, Int.le_toNat hfl, Int.le_floor]
  push_cast
  exact Iff.rfl

/-- Claim C5 (amended): the per-frame bass energy is the mean of
`max(0, mag[i]+140)` over exactly the bins whose frequency
`k·(sampleRate/2/binCount)` is at most 150 Hz — i.e. the band starts at bin 0
(0 Hz); the 20 Hz lower bound of the claim is not applied by the code. -/
theorem claim_C5 (mag : List ℚ) (sampleRate : ℚ) (hsr : 0 < sampleRate)
    (hne : mag ≠ []) :
    bassEnergy mag sampleRate =
      (((List.range mag.length).filter
          (fun (k : ℕ) => (k : ℚ) * (sampleRate / 2 / (mag.length : ℚ)) ≤ 150)).map
        (fun k => binPower mag k)).sum /
      (((List.range mag.length).filter
          (fun (k : ℕ) => (k : ℚ) * (sampleRate / 2 / (mag.length : ℚ)) ≤ 150)).length : ℚ) := by
  have hn : 0 < mag.length := List.length_pos.mpr hne
  have hpos : 0 < sampleRate / 2 / (mag.length : ℚ) :=
    div_pos (div_pos hsr two_pos) (by exact_mod_cast hn)
  have hfil : (List.range mag.length).filter
      (fun (k : ℕ) => decide ((k : ℚ) * (sampleRate / 2 / (mag.length : ℚ)) ≤ 150)) =
      List.range (min mag.length
        ((⌊(150 : ℚ) / (sampleRate / 2 / (mag.length : ℚ))⌋).toNat + 1)) := by
    rw [List.filter_congr (fun k _ => decide_eq_decide.mpr (mul_le_150_iff _ hpos k))]
    exact range_filter_le _ _
  have hbe : bassEnergy mag sampleRate =
      (((List.range
          (min (mag.length - 1)
            (⌊(150 : ℚ) / (sampleRate / 2 / (mag.length : ℚ))⌋).toNat + 1)).map
        (fun i => binPower mag i)).sum) /
      (((min (mag.length - 1)
          (⌊(150 : ℚ) / (sampleRate / 2 / (mag.length : ℚ))⌋).toNat : ℕ) : ℚ) + 1) := rfl
  have hkey : min (mag.length - 1)
      (⌊(150 : ℚ) / (sampleRate / 2 / (mag.length : ℚ))⌋).toNat + 1 =
      min mag.length ((⌊(150 : ℚ) / (sampleRate / 2 / (mag.length : ℚ))⌋).toNat + 1) := by
    omega
  rw [hbe, hfil, hkey, List.length_range]
  congr 1
  exact_mod_cast hkey

/-- Witness for C5 at a concrete input (4 bins, 80 Hz sample rate). -/
theorem claim_C5_witness :
    bassEnergy [0, -140, -140, -140] 80 =
      (((List.range ([0, -140, -140, -140] : List ℚ).length).filter
          (fun (k : ℕ) =>
            (k : ℚ) * ((80 : ℚ) / 2 / (([0, -140, -140, -140] : List ℚ).length : ℚ)) ≤ 150)).map
        (fun k => binPower [0, -140, -140, -140] k)).sum /
      (((List.range ([0, -140, -140, -140] : List ℚ).length).filter
          (fun (k : ℕ) =>
            (k : ℚ) * ((80 : ℚ) / 2 / (([0, -140, -140, -140] : List ℚ).length : ℚ)) ≤ 150)).length : ℚ) :=
  claim_C5 [0, -140, -140, -140] 80 (by norm_num) (by simp)

/-- Counterexample for C5 as stated: on 4 bins at 80 Hz (10 Hz per bin), the
code's bass energy is 35 (it averages bins 0..3, including the 0 Hz bin),
while the mean over the bins covering 20-150 Hz (bins 2 and 3) is 0. -/
theorem claim_C5_counterexample :
    bassEnergy [0, -140, -140, -140] 80 ≠ specBassEnergy [0, -140, -140, -140] 80 ∧
    bassEnergy [0, -140, -140, -140] 80 = 35 ∧
    specBassEnergy [0, -140, -140, -140] 80 = 0 := by
  norm_num [bassEnergy, specBassEnergy, binPower, List.range_succ]

/-! ## Claim C9 -/

set_option maxRecDepth 8000 in
set_option maxHeartbeats 2000000 in
theorem keyFromBins_on_major_profile : keyFromBins KS_MAJOR = "A minor" := by
  norm_num [keyFromBins, bestProfileShift, maxFoldBy, keyScoreAt, KS_MAJOR,
    KS_MINOR, NOTE_NAMES, List.range', List.range_succ]
  rfl

theorem bestProfileShift_spec (bins profile : List ℚ) :
    (bestProfileShift bins profile).1 < 12 ∧
    (bestProfileShift bins profile).2 =
      keyScoreAt bins profile (bestProfileShift bins profile).1 ∧
    ∀ j, j < 12 → keyScoreAt bins profile j ≤ (bestProfileShift bins profile).2 := by
  obtain ⟨hd, hle, hall⟩ := maxFoldBy_spec (fun shift => shift)
    (fun shift => keyScoreAt bins profile shift) (List.range' 1 11)
    (0, keyScoreAt bins profile 0)
  have hmem : ∀ j : ℕ, j ∈ List.range' 1 11 ↔ 1 ≤ j ∧ j < 12 := by
    intro j
    rw [List.mem_range'_1]
  refine ⟨?_, ?_, ?_⟩
  · rcases hd with hd | ⟨lag, hm, heq, _⟩
    · rw [bestProfileShift, hd]; norm_num
    · rw [bestProfileShift, heq]; exact ((hmem lag).mp hm).2
  · rcases hd with hd | ⟨lag, hm, heq, _⟩
    · rw [bestProfileShift, hd]
    · rw [bestProfileShift, heq]
  · intro j hj
    rcases Nat.eq_zero_or_pos j with rfl | hjpos
    · exact hle
    · exact hall j ((hmem j).mpr ⟨hjpos, hj⟩)

set_option maxRecDepth 8000 in
/-- Claim C9 (amended): the key estimator scores all 12 rotations of the
chroma histogram against the Krumhansl major and minor profiles by dot
product and returns the name of a rotation+mode whose score is maximal over
all 24, with ties between the best major and best minor resolved in favor of
major (a minor key is returned only if its score strictly beats every major
score); however, on a chroma vector exactly matching the C-major Krumhansl
profile at rotation 0 the raw-dot-product scoring makes the relative minor
win (score 166.3791 against C major's 164.6799), so it returns "A minor",
not "C major". -/
theorem claim_C9 :
    (∀ bins : List ℚ, ∃ k, k < 12 ∧
      ((keyFromBins bins = NOTE_NAMES.getD k "" ++ " major" ∧
        (∀ j, j < 12 → keyScoreAt bins KS_MAJOR j ≤ keyScoreAt bins KS_MAJOR k ∧
          keyScoreAt bins KS_MINOR j ≤ keyScoreAt bins KS_MAJOR k)) ∨
       (keyFromBins bins = NOTE_NAMES.getD k "" ++ " minor" ∧
        (∀ j, j < 12 → keyScoreAt bins KS_MAJOR j < keyScoreAt bins KS_MINOR k ∧
          keyScoreAt bins KS_MINOR j ≤ keyScoreAt bins KS_MINOR k)))) ∧
    keyFromBins KS_MAJOR = "A minor" := by
  constructor
  · intro bins
    obtain ⟨hmajlt, hmajeq, hmajall⟩ := bestProfileShift_spec bins KS_MAJOR
    obtain ⟨hminlt, hmineq, hminall⟩ := bestProfileShift_spec bins KS_MINOR
    have hk : keyFromBins bins =
        if (bestProfileShift bins KS_MINOR).2 ≤ (bestProfileShift bins KS_MAJOR).2 then
          NOTE_NAMES.getD (bestProfileShift bins KS_MAJOR).1 "" ++ " major"
        else NOTE_NAMES.getD (bestProfileShift bins KS_MINOR).1 "" ++ " minor" := rfl
    by_cases hc : (bestProfileShift bins KS_MINOR).2 ≤ (bestProfileShift bins KS_MAJOR).2
    · refine ⟨(bestProfileShift bins KS_MAJOR).1, hmajlt, Or.inl ⟨?_, ?_⟩⟩
      · rw [hk, if_pos hc]
      · intro j hj
        exact ⟨hmajeq ▸ hmajall j hj, hmajeq ▸ le_trans (hminall j hj) hc⟩
    · refine ⟨(bestProfileShift bins KS_MINOR).1, hminlt, Or.inr ⟨?_, ?_⟩⟩
      · rw [hk, if_neg hc]
      · intro j hj
        refine ⟨hmineq ▸ lt_of_le_of_lt (hmajall j hj) (lt_of_not_le hc),
          hmineq ▸ hminall j hj⟩
  · exact keyFromBins_on_major_profile

/-- Witness for C9: the concrete conjunct of the theorem, on the C-major
profile chroma itself. -/
theorem claim_C9_witness : keyFromBins KS_MAJOR = "A minor" :=
  claim_C9.2

/-- Counterexample for C9 as stated: the chroma vector exactly matching the
C-major Krumhansl profile is not assigned "C major". -/
theorem claim_C9_counterexample : keyFromBins KS_MAJOR ≠ "C major" := by
  rw [keyFromBins_on_major_profile]
  decide

/-! ## Claim C6 -/

theorem bpm_qual_iff (minB maxB frameMs : ℚ) (hmin : 0 < minB) (hmax : maxB < 60000)
    (lag : ℕ) :
    (minB ≤ bpmOfLag lag frameMs ∧ bpmOfLag lag frameMs ≤ maxB) ↔
    (minB ≤ 60000 / ((lag : ℚ) * frameMs) ∧ 60000 / ((lag : ℚ) * frameMs) ≤ maxB) := by
  rcases le_or_lt 1 ((lag : ℚ) * frameMs) with h1 | h1
  · rw [bpmOfLag, max_eq_right h1]
  · rw [bpmOfLag, max_eq_left (le_of_lt h1)]
    constructor
    · rintro ⟨_, hb⟩
      exfalso
      norm_num at hb
      linarith
    · rintro ⟨ha, hb⟩
      exfalso
      rcases lt_trichotomy ((lag : ℚ) * frameMs) 0 with h0 | h0 | h0
      · have hneg : (60000 : ℚ) / ((lag : ℚ) * frameMs) < 0 :=
          div_neg_of_pos_of_neg (by norm_num) h0
        linarith
      · rw [h0, div_zero] at ha; linarith
      · have hlt : (60000 : ℚ) / 1 < 60000 / ((lag : ℚ) * frameMs) :=
          div_lt_div_of_pos_left (by norm_num) h0 h1
        norm_num at hlt
        linarith

theorem bpm_qual_val (minB maxB frameMs : ℚ) (hmax : maxB < 60000) (lag : ℕ)
    (hq : minB ≤ bpmOfLag lag frameMs ∧ bpmOfLag lag frameMs ≤ maxB) :
    bpmOfLag lag frameMs = 60000 / ((lag : ℚ) * frameMs) := by
  rcases le_or_lt ((lag : ℚ) * frameMs) 1 with h1 | h1
  · exfalso
    have hval : bpmOfLag lag frameMs = 60000 := by
      rw [bpmOfLag, max_eq_left h1]; norm_num
    rw [hval] at hq
    linarith [hq.2]
  · rw [bpmOfLag, max_eq_right (le_of_lt h1)]

theorem bpmStep_fold_spec (x : List ℚ) (minB maxB f : ℚ) (l : List ℕ) :
    ∀ acc : Option (ℕ × ℚ),
    (l.foldl (bpmStep x minB maxB f) acc = none →
      acc = none ∧ ∀ lag ∈ l, ¬(minB ≤ bpmOfLag lag f ∧ bpmOfLag lag f ≤ maxB)) ∧
    (∀ p : ℕ × ℚ, l.foldl (bpmStep x minB maxB f) acc = some p →
      (acc = some p ∨ (p.1 ∈ l ∧ (minB ≤ bpmOfLag p.1 f ∧ bpmOfLag p.1 f ≤ maxB) ∧
        p.2 = acLagSum x p.1)) ∧
      (∀ q : ℕ × ℚ, acc = some q → q.2 ≤ p.2) ∧
      (∀ lag ∈ l, (minB ≤ bpmOfLag lag f ∧ bpmOfLag lag f ≤ maxB) →
        acLagSum x lag ≤ p.2)) := by
  induction l with
  | nil =>
      intro acc
      refine ⟨fun h => ⟨h, by simp⟩, fun p hp => ⟨Or.inl hp, ?_, by simp⟩⟩
      intro q hq
      have hpq : some q = some p := hq.symm.trans hp
      obtain rfl : q = p := Option.some.inj hpq
      exact le_refl _
  | cons a t ih =>
      intro acc
      have hstep : (a :: t).foldl (bpmStep x minB maxB f) acc =
          t.foldl (bpmStep x minB maxB f) (bpmStep x minB maxB f acc a) := rfl
      by_cases hQ : minB ≤ bpmOfLag a f ∧ bpmOfLag a f ≤ maxB
      · have hgen : ∀ na : ℕ × ℚ,
            bpmStep x minB maxB f acc a = some na →
            na.2 = acLagSum x na.1 ∧ (na.1 = a ∧ acLagSum x a ≤ na.2 ∨ acc = some na) →
            True := fun _ _ _ => trivial
        cases acc with
        | none =>
            have hacc : bpmStep x minB maxB f none a = some (a, acLagSum x a) := by
              simp [bpmStep, hQ]
            obtain ⟨ihn, ihs⟩ := ih (bpmStep x minB maxB f none a)
            constructor
            · intro h
              rw [hstep] at h
              obtain ⟨h1, _⟩ := ihn h
              rw [hacc] at h1
              exact absurd h1 (by simp)
            · intro p hp
              rw [hstep] at hp
              obtain ⟨hd, hq, hall⟩ := ihs p hp
              refine ⟨?_, by intro q hq2; exact absurd hq2 (by simp), ?_⟩
              · rcases hd with hd | ⟨hm, hQ2, hv⟩
                · rw [hacc] at hd
                  obtain rfl : (a, acLagSum x a) = p := Option.some.inj hd
                  exact Or.inr ⟨List.mem_cons_self a t, hQ, rfl⟩
                · exact Or.inr ⟨List.mem_cons_of_mem a hm, hQ2, hv⟩
              · intro lag hmem hQl
                rcases List.mem_cons.mp hmem with rfl | hmem2
                · simpa using hq _ hacc
                · exact hall lag hmem2 hQl
        | some b =>
            by_cases hcmp : b.2 < acLagSum x a
            · have hacc : bpmStep x minB maxB f (some b) a = some (a, acLagSum x a) := by
                simp [bpmStep, hQ, hcmp]
              obtain ⟨ihn, ihs⟩ := ih (bpmStep x minB maxB f (some b) a)
              constructor
              · intro h
                rw [hstep] at h
                obtain ⟨h1, _⟩ := ihn h
                rw [hacc] at h1
                exact absurd h1 (by simp)
              · intro p hp
                rw [hstep] at hp
                obtain ⟨hd, hq, hall⟩ := ihs p hp
                have hap : acLagSum x a ≤ p.2 := by simpa using hq _ hacc
                refine ⟨?_, ?_, ?_⟩
                · rcases hd with hd | ⟨hm, hQ2, hv⟩
                  · rw [hacc] at hd
                    obtain rfl : (a, acLagSum x a) = p := Option.some.inj hd
                    exact Or.inr ⟨List.mem_cons_self a t, hQ, rfl⟩
                  · exact Or.inr ⟨List.mem_cons_of_mem a hm, hQ2, hv⟩
                · intro q hq2
                  obtain rfl : b = q := Option.some.inj hq2
                  exact le_trans (le_of_lt hcmp) hap
                · intro lag hmem hQl
                  rcases List.mem_cons.mp hmem with rfl | hmem2
                  · exact hap
                  · exact hall lag hmem2 hQl
            · have hacc : bpmStep x minB maxB f (some b) a = some b := by
                simp [bpmStep, hQ, hcmp]
              obtain ⟨ihn, ihs⟩ := ih (bpmStep x minB maxB f (some b) a)
              constructor
              · intro h
                rw [hstep] at h
                obtain ⟨h1, _⟩ := ihn h
                rw [hacc] at h1
                exact absurd h1 (by simp)
              · intro p hp
                rw [hstep] at hp
                obtain ⟨hd, hq, hall⟩ := ihs p hp
                have hbp : b.2 ≤ p.2 := hq b hacc
                refine ⟨?_, ?_, ?_⟩
                · rcases hd with hd | ⟨hm, hQ2, hv⟩
                  · rw [hacc] at hd
                    exact Or.inl hd
                  · exact Or.inr ⟨List.mem_cons_of_mem a hm, hQ2, hv⟩
                · intro q hq2
                  obtain rfl : b = q := Option.some.inj hq2
                  exact hbp
                · intro lag hmem hQl
                  rcases List.mem_cons.mp hmem with rfl | hmem2
                  · exact le_trans (le_of_not_lt hcmp) hbp
                  · exact hall lag hmem2 hQl
      · have hacc : bpmStep x minB maxB f acc a = acc := by simp [bpmStep, hQ]
        obtain ⟨ihn, ihs⟩ := ih acc
        constructor
        · intro h
          rw [hstep, hacc] at h
          obtain ⟨h1, h2⟩ := ihn h
          refine ⟨h1, ?_⟩
          intro lag hmem
          rcases List.mem_cons.mp hmem with rfl | hm
          · exact hQ
          · exact h2 lag hm
        · intro p hp
          rw [hstep, hacc] at hp
          obtain ⟨hd, hq, hall⟩ := ihs p hp
          refine ⟨?_, hq, ?_⟩
          · rcases hd with hd | ⟨hm, hQ2, hv⟩
            · exact Or.inl hd
            · exact Or.inr ⟨List.mem_cons_of_mem a hm, hQ2, hv⟩
          · intro lag hmem hQl
            rcases List.mem_cons.mp hmem with rfl | hm
            · exact absurd hQl hQ
            · exact hall lag hm hQl

/-- Claim C6: `estimateBPM` returns null when the series has fewer than 128
samples, and returns null when no lag in `8 ≤ lag < N/2` has an implied BPM
`60000/(lag·frameMs)` inside `[minBPM, maxBPM]`; when it returns a value,
that value equals `60000/(lag·frameMs)` for a qualifying lag with maximal
mean-centered autocorrelation, and therefore lies within `[minBPM, maxBPM]`.
(The bounds `0 < minBPM` and `maxBPM < 60000` cover the call site
`[60, 200]`; they make the code's `Math.max(1, periodMs)` guard transparent
on qualifying lags.) -/
theorem claim_C6 (series : List ℚ) (minBPM maxBPM frameMs : ℚ)
    (hmin : 0 < minBPM) (hmax : maxBPM < 60000) :
    (series.length < 128 → estimateBPM series minBPM maxBPM frameMs = none) ∧
    ((∀ lag : ℕ, 8 ≤ lag → 2 * lag < series.length →
        ¬(minBPM ≤ 60000 / ((lag : ℚ) * frameMs) ∧
          60000 / ((lag : ℚ) * frameMs) ≤ maxBPM)) →
      estimateBPM series minBPM maxBPM frameMs = none) ∧
    (∀ v, estimateBPM series minBPM maxBPM frameMs = some v →
      ∃ lag : ℕ, 8 ≤ lag ∧ 2 * lag < series.length ∧
        v = 60000 / ((lag : ℚ) * frameMs) ∧ minBPM ≤ v ∧ v ≤ maxBPM ∧
        ∀ lag2 : ℕ, 8 ≤ lag2 → 2 * lag2 < series.length →
          minBPM ≤ 60000 / ((lag2 : ℚ) * frameMs) →
          60000 / ((lag2 : ℚ) * frameMs) ≤ maxBPM →
          acLagSum (centeredSeries series) lag2 ≤ acLagSum (centeredSeries series) lag) := by
  by_cases hlen : series.length < 128
  · have he : estimateBPM series minBPM maxBPM frameMs = none := by
      unfold estimateBPM
      rw [if_pos hlen]
    refine ⟨fun _ => he, fun _ => he, ?_⟩
    intro v hv
    rw [he] at hv
    exact absurd hv (by simp)
  · have hmem : ∀ lag : ℕ, lag ∈ List.range' 8 ((series.length - 1) / 2 + 1 - 8) ↔
        8 ≤ lag ∧ 2 * lag < series.length := by
      intro lag
      rw [List.mem_range'_1]
      omega
    have hbb : estimateBPM series minBPM maxBPM frameMs =
        match bpmBestLag series minBPM maxBPM frameMs with
        | none => none
        | some b => some (60000 / max 1 ((b.1 : ℚ) * frameMs)) := by
      unfold estimateBPM
      rw [if_neg hlen]
    obtain ⟨hnone, hsome⟩ := bpmStep_fold_spec (centeredSeries series) minBPM maxBPM
      frameMs (List.range' 8 ((series.length - 1) / 2 + 1 - 8)) none
    have hfold : (List.range' 8 ((series.length - 1) / 2 + 1 - 8)).foldl
        (bpmStep (centeredSeries series) minBPM maxBPM frameMs) none =
        bpmBestLag series minBPM maxBPM frameMs := rfl
    rw [hfold] at hnone hsome
    refine ⟨fun h => absurd h hlen, ?_, ?_⟩
    · intro hno
      cases hb : bpmBestLag series minBPM maxBPM frameMs with
      | none => rw [hbb, hb]
      | some b =>
          exfalso
          obtain ⟨hd, _, _⟩ := hsome b hb
          rcases hd with hd | ⟨hm, hQ, _⟩
          · exact absurd hd (by simp)
          · obtain ⟨h8, h2l⟩ := (hmem b.1).mp hm
            exact hno b.1 h8 h2l
              ((bpm_qual_iff minBPM maxBPM frameMs hmin hmax b.1).mp hQ)
    · intro v hv
      rw [hbb] at hv
      cases hb : bpmBestLag series minBPM maxBPM frameMs with
      | none => rw [hb] at hv; exact absurd hv (by simp)
      | some b =>
          rw [hb] at hv
          have hveq : v = 60000 / max 1 ((b.1 : ℚ) * frameMs) := (Option.some.inj hv).symm
          obtain ⟨hd, _, hall⟩ := hsome b hb
          rcases hd with hd | ⟨hm, hQ, hbval⟩
          · exact absurd hd (by simp)
          · obtain ⟨h8, h2l⟩ := (hmem b.1).mp hm
            have hbv : bpmOfLag b.1 frameMs = 60000 / ((b.1 : ℚ) * frameMs) :=
              bpm_qual_val minBPM maxBPM frameMs hmax b.1 hQ
            refine ⟨b.1, h8, h2l, ?_, ?_, ?_, ?_⟩
            · rw [hveq]; exact hbv
            · rw [hveq]; exact hQ.1
            · rw [hveq]; exact hQ.2
            · intro lag2 h8b h2b hq1 hq2
              have hQ2 : minBPM ≤ bpmOfLag lag2 frameMs ∧ bpmOfLag lag2 frameMs ≤ maxBPM :=
                (bpm_qual_iff minBPM maxBPM frameMs hmin hmax lag2).mpr ⟨hq1, hq2⟩
              have hle2 := hall lag2 ((hmem lag2).mpr ⟨h8b, h2b⟩) hQ2
              rw [hbval] at hle2
              exact hle2

/-- Witness for C6 at a concrete input: the empty flux history yields no
tempo. -/
theorem claim_C6_witness : estimateBPM [] 60 200 17 = none :=
  (claim_C6 [] 60 200 17 (by norm_num) (by norm_num)).1 (by simp)

/-! ## Claims C2 and C4 -/

theorem detectPitchACF_cases (time : List ℝ) (sr mf Mf : ℝ) :
    ((acfBest (acfBuf time) (⌊sr / Mf⌋).toNat (⌊sr / mf⌋).toNat).1 ≤ 0 ∧
      detectPitchACF time sr mf Mf = noPitch) ∨
    (¬ (acfBest (acfBuf time) (⌊sr / Mf⌋).toNat (⌊sr / mf⌋).toNat).1 ≤ 0 ∧
      detectPitchACF time sr mf Mf =
        ⟨some (sr / ((acfBest (acfBuf time) (⌊sr / Mf⌋).toNat (⌊sr / mf⌋).toNat).1 : ℝ)),
          some (freqToMidi
            (sr / ((acfBest (acfBuf time) (⌊sr / Mf⌋).toNat (⌊sr / mf⌋).toNat).1 : ℝ))),
          some (midiToNoteName (freqToMidi
            (sr / ((acfBest (acfBuf time) (⌊sr / Mf⌋).toNat (⌊sr / mf⌋).toNat).1 : ℝ)))),
          min 1 (max 0 (acfBest (acfBuf time) (⌊sr / Mf⌋).toNat (⌊sr / mf⌋).toNat).2)⟩) := by
  by_cases hb : (acfBest (acfBuf time) (⌊sr / Mf⌋).toNat (⌊sr / mf⌋).toNat).1 ≤ 0
  · left
    refine ⟨hb, ?_⟩
    simp only [detectPitchACF]
    rw [if_pos hb]
  · right
    refine ⟨hb, ?_⟩
    simp only [detectPitchACF]
    rw [if_neg hb]

theorem simpleCepstrumPitch_cases (mag : List ℝ) (sr : ℝ) :
    simpleCepstrumPitch mag sr = noPitch ∨
    ∃ f m n c, simpleCepstrumPitch mag sr = ⟨some f, some m, some n, c⟩ := by
  simp only [simpleCepstrumPitch]
  split
  · exact Or.inl rfl
  · exact Or.inr ⟨_, _, _, _, rfl⟩

theorem detectPitchACF_nil (sr mf Mf : ℝ) : detectPitchACF [] sr mf Mf = noPitch := by
  have hbuf : acfBuf ([] : List ℝ) = [] := rfl
  have hval : ∀ lag, acfVal (acfBuf ([] : List ℝ)) lag = 0 := by
    intro lag
    rw [hbuf]
    unfold acfVal
    simp
  obtain ⟨hdisj, _, _⟩ := maxFoldBy_spec (fun lag => (lag : ℤ))
    (fun lag => acfVal (acfBuf ([] : List ℝ)) lag)
    (List.range' (⌊sr / Mf⌋).toNat ((⌊sr / mf⌋).toNat + 1 - (⌊sr / Mf⌋).toNat)) (-1, 0)
  have hres0 : acfBest (acfBuf ([] : List ℝ)) (⌊sr / Mf⌋).toNat (⌊sr / mf⌋).toNat =
      (-1, 0) := by
    rcases hdisj with hres | ⟨lag, _, hres, hpos⟩
    · exact hres
    · exfalso
      rw [hval lag] at hpos
      norm_num at hpos
  rcases detectPitchACF_cases [] sr mf Mf with ⟨_, h⟩ | ⟨hb, h⟩
  · exact h
  · exfalso
    apply hb
    rw [hres0]
    norm_num

/-- Claim C4: each of the two pitch estimators returns either all of
frequency, midi and note non-null, or all of them null with confidence 0
(`frequency = null` never appears with a non-null midi or note); and the
fused estimate is the one of the two estimator results with the higher
confidence, with ties going to the autocorrelation estimator (the `>=`
comparison). -/
theorem claim_C4 (tdom magL : List ℝ) (mag : Option (List ℝ)) (sampleRate : ℝ) :
    pitchAllOrNothing (detectPitchACF tdom sampleRate 50 1000) ∧
    pitchAllOrNothing (simpleCepstrumPitch magL sampleRate) ∧
    ((cepsOrNull mag sampleRate).clarity ≤ (detectPitchACF tdom sampleRate 50 1000).clarity →
      fusePitch tdom mag sampleRate = detectPitchACF tdom sampleRate 50 1000) ∧
    ((detectPitchACF tdom sampleRate 50 1000).clarity < (cepsOrNull mag sampleRate).clarity →
      fusePitch tdom mag sampleRate = cepsOrNull mag sampleRate) := by
  refine ⟨?_, ?_, ?_, ?_⟩
  · rcases detectPitchACF_cases tdom sampleRate 50 1000 with ⟨_, h⟩ | ⟨_, h⟩
    · rw [pitchAllOrNothing, h]
      exact Or.inl ⟨rfl, rfl, rfl, rfl⟩
    · rw [pitchAllOrNothing, h]
      right
      refine ⟨?_, ?_, ?_⟩ <;> simp
  · rcases simpleCepstrumPitch_cases magL sampleRate with h | ⟨f, m, n, c, h⟩
    · rw [pitchAllOrNothing, h]
      exact Or.inl ⟨rfl, rfl, rfl, rfl⟩
    · rw [pitchAllOrNothing, h]
      right
      refine ⟨?_, ?_, ?_⟩ <;> simp
  · intro h
    unfold fusePitch
    rw [if_pos h]
  · intro h
    unfold fusePitch
    rw [if_neg (not_le.mpr h)]

/-- Witness for C4 at a concrete input: with an empty waveform and no
magnitude array both estimators report confidence 0, and the tie goes to the
autocorrelation estimator. -/
theorem claim_C4_witness :
    fusePitch [] none 48000 = detectPitchACF [] 48000 50 1000 := by
  apply (claim_C4 [] [] none 48000).2.2.1
  rw [detectPitchACF_nil]
  exact le_refl _

/-- Claim C2 (amended): for a positive sample rate, `detectPitchACF` (with
minFreq = 50, maxFreq = 1000) always reports a confidence in [0,1]; when the
returned frequency is non-null it equals `sampleRate/lag` for a positive
integer lag in the candidate range `[⌊sampleRate/1000⌋, ⌊sampleRate/50⌋]`
(the code floors both endpoints, so the lag need not lie in the real interval
`[sampleRate/1000, sampleRate/50]`); and when no candidate lag has positive
normalized autocorrelation, all of frequency, midi and note are null with
confidence 0. -/
theorem claim_C2 (time : List ℝ) (sampleRate : ℝ) (hsr : 0 < sampleRate) :
    (0 ≤ (detectPitchACF time sampleRate 50 1000).clarity ∧
      (detectPitchACF time sampleRate 50 1000).clarity ≤ 1) ∧
    (∀ f, (detectPitchACF time sampleRate 50 1000).frequency = some f →
      ∃ lag : ℕ, (⌊sampleRate / 1000⌋).toNat ≤ lag ∧ lag ≤ (⌊sampleRate / 50⌋).toNat ∧
        0 < lag ∧ f = sampleRate / (lag : ℝ)) ∧
    ((∀ lag : ℕ, (⌊sampleRate / 1000⌋).toNat ≤ lag → lag ≤ (⌊sampleRate / 50⌋).toNat →
        acfVal (acfBuf time) lag ≤ 0) →
      detectPitchACF time sampleRate 50 1000 = noPitch) := by
  obtain ⟨hdisj, hnn, hall⟩ := maxFoldBy_spec (fun lag => (lag : ℤ))
    (fun lag => acfVal (acfBuf time) lag)
    (List.range' (⌊sampleRate / 1000⌋).toNat
      ((⌊sampleRate / 50⌋).toNat + 1 - (⌊sampleRate / 1000⌋).toNat)) (-1, 0)
  have hfold : maxFoldBy (fun lag => (lag : ℤ)) (fun lag => acfVal (acfBuf time) lag)
      (List.range' (⌊sampleRate / 1000⌋).toNat
        ((⌊sampleRate / 50⌋).toNat + 1 - (⌊sampleRate / 1000⌋).toNat)) (-1, 0) =
      acfBest (acfBuf time) (⌊sampleRate / 1000⌋).toNat (⌊sampleRate / 50⌋).toNat := rfl
  rw [hfold] at hdisj hnn hall
  refine ⟨?_, ?_, ?_⟩
  · rcases detectPitchACF_cases time sampleRate 50 1000 with ⟨_, h⟩ | ⟨_, h⟩
    · rw [h]
      norm_num [noPitch]
    · rw [h]
      exact ⟨le_min (by norm_num) (le_max_left 0 _), min_le_left 1 _⟩
  · intro f hf
    rcases detectPitchACF_cases time sampleRate 50 1000 with ⟨_, h⟩ | ⟨hb, h⟩
    · rw [h] at hf
      exact absurd hf (by simp [noPitch])
    · rw [h] at hf
      have hfe : f = sampleRate /
          ((acfBest (acfBuf time) (⌊sampleRate / 1000⌋).toNat
            (⌊sampleRate / 50⌋).toNat).1 : ℝ) := (Option.some.inj hf).symm
      rcases hdisj with hres | ⟨lag, hmem, hres, _⟩
      · exfalso
        apply hb
        rw [hres]
        norm_num
      · have hm2 := List.mem_range'_1.mp hmem
        refine ⟨lag, hm2.1, by omega, ?_, ?_⟩
        · rw [hres] at hb
          simp only [not_le] at hb
          exact_mod_cast hb
        · rw [hfe, hres]
          norm_num
  · intro hval
    rcases hdisj with hres | ⟨lag, hmem, hres, hpos⟩
    · rcases detectPitchACF_cases time sampleRate 50 1000 with ⟨_, h⟩ | ⟨hb, h⟩
      · exact h
      · exfalso
        apply hb
        rw [hres]
        norm_num
    · exfalso
      have hm2 := List.mem_range'_1.mp hmem
      have hle0 := hval lag hm2.1 (by omega)
      simp only [] at hpos
      have hpos2 : (0 : ℝ) < acfVal (acfBuf time) lag := hpos
      linarith

/-- Witness for C2 at a concrete input: on the empty waveform at 48 kHz the
confidence is within [0,1]. -/
theorem claim_C2_witness :
    0 ≤ (detectPitchACF [] 48000 50 1000).clarity ∧
    (detectPitchACF [] 48000 50 1000).clarity ≤ 1 :=
  (claim_C2 [] 48000 (by norm_num)).1

set_option maxRecDepth 8000 in
set_option maxHeartbeats 1000000 in
/-- Counterexample for C2 as stated: at sampleRate 1100 the candidate lags
are `1..22` (the code floors `1100/1000` to 1), and on the ramp waveform
`[0,1,2,3]` the best lag is 1, so the returned frequency is `1100/1 = 1100`;
but no integer lag inside the real interval `[1100/1000, 1100/50]` has
`1100/lag = 1100` (the only solution, lag 1, lies below `1.1`). -/
theorem claim_C2_counterexample :
    (detectPitchACF [0, 1, 2, 3] 1100 50 1000).frequency = some 1100 ∧
    ¬ ∃ lag : ℤ, (1100 : ℝ) / 1000 ≤ (lag : ℝ) ∧ (lag : ℝ) ≤ (1100 : ℝ) / 50 ∧
      (1100 : ℝ) = 1100 / (lag : ℝ) := by
  constructor
  · have hm0 : ⌊(1100 : ℝ) / 1000⌋ = 1 := by
      norm_num [Int.floor_eq_iff]
    have hM0 : ⌊(1100 : ℝ) / 50⌋ = 22 := by
      norm_num [Int.floor_eq_iff]
    have hm : (⌊(1100 : ℝ) / 1000⌋).toNat = 1 := by rw [hm0]; rfl
    have hM : (⌊(1100 : ℝ) / 50⌋).toNat = 22 := by rw [hM0]; rfl
    have hacf : acfBest (acfBuf ([0, 1, 2, 3] : List ℝ)) 1 22 = (1, (5 / 27 : ℝ)) := by
      norm_num [acfBest, maxFoldBy, acfVal, acfBuf, List.range', List.range_succ,
        max_def, abs_div, abs_neg, Nat.abs_ofNat]
    rcases detectPitchACF_cases [0, 1, 2, 3] 1100 50 1000 with ⟨hb, _⟩ | ⟨_, h⟩
    · rw [hm, hM, hacf] at hb
      norm_num at hb
    · rw [h, hm, hM, hacf]
      norm_num
  · rintro ⟨lag, h1, h2, h3⟩
    have hlag0 : (lag : ℝ) ≠ 0 := by
      intro h0
      rw [h0, div_zero] at h3
      norm_num at h3
    have hlag1 : lag = 1 := by
      field_simp at h3
      exact_mod_cast h3
    rw [hlag1] at h1
    norm_num at h1

/-! ## Claim C7 -/

theorem list_mem_set {α : Type} (l : List α) (i : ℕ) (a b : α) (h : b ∈ l.set i a) :
    b = a ∨ b ∈ l := by
  induction l generalizing i with
  | nil => simp at h
  | cons x t ihl =>
      cases i with
      | zero =>
          rw [List.set_cons_zero] at h
          rcases List.mem_cons.mp h with rfl | h2
          · exact Or.inl rfl
          · exact Or.inr (List.mem_cons_of_mem x h2)
      | succ n =>
          rw [List.set_cons_succ] at h
          rcases List.mem_cons.mp h with rfl | h2
          · exact Or.inr (List.mem_cons_self b t)
          · rcases ihl n h2 with h3 | h3
            · exact Or.inl h3
            · exact Or.inr (List.mem_cons_of_mem x h3)

theorem wrapCoord_mem (z w : ℝ) (hlo : -w ≤ z) (hhi : z ≤ 2 * w) :
    0 ≤ wrapCoord z w ∧ wrapCoord z w ≤ w := by
  by_cases h0 : z < 0
  · have h1 : ¬ w < z + w := by linarith
    simp only [wrapCoord, if_pos h0, if_neg h1]
    constructor <;> linarith
  · by_cases h2 : w < z
    · simp only [wrapCoord, if_neg h0, if_pos h2]
      constructor <;> linarith
    · simp only [wrapCoord, if_neg h0, if_neg h2]
      constructor <;> linarith

theorem clampSpeed_sq_le (vx vy M : ℝ) (hM : 0 ≤ M) :
    (clampSpeed vx vy M).1 ^ 2 + (clampSpeed vx vy M).2 ^ 2 ≤ M ^ 2 := by
  have hsq : Real.sqrt (vx ^ 2 + vy ^ 2) ^ 2 = vx ^ 2 + vy ^ 2 :=
    Real.sq_sqrt (by positivity)
  by_cases hc : M < Real.sqrt (vx ^ 2 + vy ^ 2)
  · have hsp0 : 0 < Real.sqrt (vx ^ 2 + vy ^ 2) := lt_of_le_of_lt hM hc
    have hspne : Real.sqrt (vx ^ 2 + vy ^ 2) ^ 2 ≠ 0 := pow_ne_zero 2 (ne_of_gt hsp0)
    simp only [clampSpeed, if_pos hc]
    have key : (vx / Real.sqrt (vx ^ 2 + vy ^ 2) * M) ^ 2 +
        (vy / Real.sqrt (vx ^ 2 + vy ^ 2) * M) ^ 2 =
        (vx ^ 2 + vy ^ 2) / Real.sqrt (vx ^ 2 + vy ^ 2) ^ 2 * M ^ 2 := by
      ring
    rw [key]
    have hne2 : (vx ^ 2 + vy ^ 2) ≠ 0 := by
      rw [← hsq]
      exact hspne
    rw [hsq, div_self hne2, one_mul]
  · have hle : Real.sqrt (vx ^ 2 + vy ^ 2) ≤ M := le_of_not_lt hc
    simp only [clampSpeed, if_neg hc]
    calc vx ^ 2 + vy ^ 2 = Real.sqrt (vx ^ 2 + vy ^ 2) ^ 2 := hsq.symm
      _ ≤ M ^ 2 := pow_le_pow_left (Real.sqrt_nonneg _) hle 2

theorem abs_le_of_sq_add_sq_le (a b M : ℝ) (hM : 0 ≤ M) (h : a ^ 2 + b ^ 2 ≤ M ^ 2) :
    |a| ≤ M := by
  by_contra hcon
  push_neg at hcon
  have hlt : M ^ 2 < |a| ^ 2 := pow_lt_pow_left hcon hM (by norm_num)
  rw [sq_abs] at hlt
  nlinarith [sq_nonneg b]

theorem mkBoid_spec (bx byy vx1 vy1 hue W H M : ℝ) (hM : 0 ≤ M) (hMW : M ≤ W)
    (hMH : M ≤ H) (hx0 : 0 ≤ bx) (hxW : bx ≤ W) (hy0 : 0 ≤ byy) (hyH : byy ≤ H) :
    inCanvas W H ⟨wrapCoord (bx + (clampSpeed vx1 vy1 M).1) W,
      wrapCoord (byy + (clampSpeed vx1 vy1 M).2) H,
      (clampSpeed vx1 vy1 M).1, (clampSpeed vx1 vy1 M).2, hue⟩ ∧
    (clampSpeed vx1 vy1 M).1 ^ 2 + (clampSpeed vx1 vy1 M).2 ^ 2 ≤ M ^ 2 := by
  have hsq := clampSpeed_sq_le vx1 vy1 M hM
  have hax : |(clampSpeed vx1 vy1 M).1| ≤ M := abs_le_of_sq_add_sq_le _ _ _ hM hsq
  have hay : |(clampSpeed vx1 vy1 M).2| ≤ M :=
    abs_le_of_sq_add_sq_le ((clampSpeed vx1 vy1 M).2) ((clampSpeed vx1 vy1 M).1) M hM
      (by linarith)
  obtain ⟨hax1, hax2⟩ := abs_le.mp hax
  obtain ⟨hay1, hay2⟩ := abs_le.mp hay
  refine ⟨⟨?_, ?_, ?_, ?_⟩, hsq⟩
  · exact (wrapCoord_mem _ _ (by linarith) (by linarith)).1
  · exact (wrapCoord_mem _ _ (by linarith) (by linarith)).2
  · exact (wrapCoord_mem _ _ (by linarith) (by linarith)).1
  · exact (wrapCoord_mem _ _ (by linarith) (by linarith)).2

theorem updateBoid_spec (cur : List Boid) (i : ℕ) (W H : ℝ) (p : BoidParams)
    (target : Option (ℝ × ℝ)) (bassPush : ℝ) (hM : 0 ≤ p.maxSpeed)
    (hMW : p.maxSpeed ≤ W) (hMH : p.maxSpeed ≤ H)
    (hall : ∀ b ∈ cur, inCanvas W H b) (hi : i < cur.length) :
    inCanvas W H (updateBoid cur i W H p target bassPush) ∧
    (updateBoid cur i W H p target bassPush).vx ^ 2 +
      (updateBoid cur i W H p target bassPush).vy ^ 2 ≤ p.maxSpeed ^ 2 := by
  have hb : cur.getD i ⟨0, 0, 0, 0, 0⟩ ∈ cur := by
    rw [List.getD_eq_getElem _ _ hi]
    exact List.getElem_mem hi
  obtain ⟨hx0, hxW, hy0, hyH⟩ := hall _ hb
  exact mkBoid_spec _ _ _ _ _ _ _ _ hM hMW hMH hx0 hxW hy0 hyH

theorem stepBoids_fold_inv (W H : ℝ) (p : BoidParams) (target : Option (ℝ × ℝ))
    (bassPush : ℝ) (hM : 0 ≤ p.maxSpeed) (hMW : p.maxSpeed ≤ W) (hMH : p.maxSpeed ≤ H) :
    ∀ (n : ℕ) (cur : List Boid), n ≤ cur.length → (∀ b ∈ cur, inCanvas W H b) →
    (((List.range n).foldl
        (fun c i => c.set i (updateBoid c i W H p target bassPush)) cur).length =
      cur.length) ∧
    (∀ b ∈ (List.range n).foldl
        (fun c i => c.set i (updateBoid c i W H p target bassPush)) cur,
      inCanvas W H b) ∧
    (∀ j, j < n →
      (((List.range n).foldl
          (fun c i => c.set i (updateBoid c i W H p target bassPush)) cur).getD j
        ⟨0, 0, 0, 0, 0⟩).vx ^ 2 +
      (((List.range n).foldl
          (fun c i => c.set i (updateBoid c i W H p target bassPush)) cur).getD j
        ⟨0, 0, 0, 0, 0⟩).vy ^ 2 ≤ p.maxSpeed ^ 2) := by
  intro n
  induction n with
  | zero =>
      intro cur _ hpos
      exact ⟨rfl, hpos, fun j hj => absurd hj (by omega)⟩
  | succ k ih =>
      intro cur hk hpos
      obtain ⟨ihlen, ihpos, ihspd⟩ := ih cur (by omega) hpos
      have hfold : (List.range (k + 1)).foldl
          (fun c i => c.set i (updateBoid c i W H p target bassPush)) cur =
          ((List.range k).foldl
            (fun c i => c.set i (updateBoid c i W H p target bassPush)) cur).set k
            (updateBoid ((List.range k).foldl
              (fun c i => c.set i (updateBoid c i W H p target bassPush)) cur) k
              W H p target bassPush) := by
        rw [List.range_succ, List.foldl_append]
        rfl
      have hkmid : k < ((List.range k).foldl
          (fun c i => c.set i (updateBoid c i W H p target bassPush)) cur).length := by
        rw [ihlen]; omega
      obtain ⟨hposk, hspdk⟩ := updateBoid_spec _ k W H p target bassPush hM hMW hMH
        ihpos hkmid
      rw [hfold]
      refine ⟨?_, ?_, ?_⟩
      · rw [List.length_set, ihlen]
      · intro b hbmem
        rcases list_mem_set _ _ _ _ hbmem with rfl | h2
        · exact hposk
        · exact ihpos b h2
      · intro j hj
        by_cases hjk : j = k
        · subst hjk
          rw [list_getD_set_self _ _ _ _ hkmid]
          exact hspdk
        · have hjk2 : j < k := by omega
          rw [list_getD_set_ne _ _ _ _ _ (fun hh => hjk hh.symm) (by omega)]
          exact ihspd j hjk2

theorem stepBoids_inv (boids : List Boid) (W H : ℝ) (p : BoidParams)
    (target : Option (ℝ × ℝ)) (bassPush : ℝ) (hM : 0 ≤ p.maxSpeed)
    (hMW : p.maxSpeed ≤ W) (hMH : p.maxSpeed ≤ H)
    (hstart : ∀ b ∈ boids, inCanvas W H b) :
    (stepBoids boids W H p target bassPush).length = boids.length ∧
    (∀ b ∈ stepBoids boids W H p target bassPush, inCanvas W H b) ∧
    (∀ b ∈ stepBoids boids W H p target bassPush,
      b.vx ^ 2 + b.vy ^ 2 ≤ p.maxSpeed ^ 2) := by
  obtain ⟨hlen, hpos, hspd⟩ := stepBoids_fold_inv W H p target bassPush hM hMW hMH
    boids.length boids (le_refl _) hstart
  have hsb : stepBoids boids W H p target bassPush =
      (List.range boids.length).foldl
        (fun c i => c.set i (updateBoid c i W H p target bassPush)) boids := rfl
  refine ⟨hlen, hpos, ?_⟩
  intro b hbmem
  obtain ⟨j, hj, hgetb⟩ := List.mem_iff_getElem.mp hbmem
  have hj2 : j < boids.length := by
    rw [← hlen]
    exact hj
  have hgd := hspd j hj2
  rw [← hsb] at hgd
  rw [List.getD_eq_getElem _ _ hj, hgetb] at hgd
  exact hgd

theorem stepBoids_length (bs : List Boid) (W H : ℝ) (p : BoidParams)
    (target : Option (ℝ × ℝ)) (bassPush : ℝ) :
    (stepBoids bs W H p target bassPush).length = bs.length := by
  have hgen : ∀ (l : List ℕ) (cur : List Boid),
      ((l.foldl (fun c i => c.set i (updateBoid c i W H p target bassPush)) cur).length =
        cur.length) := by
    intro l
    induction l with
    | nil => intro cur; rfl
    | cons a t ihl =>
        intro cur
        have : (a :: t).foldl (fun c i => c.set i (updateBoid c i W H p target bassPush))
            cur = t.foldl (fun c i => c.set i (updateBoid c i W H p target bassPush))
            (cur.set a (updateBoid cur a W H p target bassPush)) := rfl
        rw [this, ihl, List.length_set]
  exact hgen _ _

/-- Claim C7 (amended): for parameters with `0 ≤ maxSpeed ≤ min(W, H)`, every
boid's speed satisfies `vx² + vy² ≤ maxSpeed²` after every step, and
positions stay inside the closed box `[0,W]×[0,H]` for any number of steps
(with per-frame targets and bass pushes) starting from boids inside the
canvas.  The half-open box `[0,W)×[0,H)` of the claim is not invariant: the
wrap `if (x > w) x -= w` keeps `x = w` (see the counterexample). -/
theorem claim_C7 (boids : List Boid) (W H : ℝ) (p : BoidParams)
    (frames : List (Option (ℝ × ℝ) × ℝ)) (hM : 0 ≤ p.maxSpeed)
    (hMW : p.maxSpeed ≤ W) (hMH : p.maxSpeed ≤ H)
    (hstart : ∀ b ∈ boids, inCanvas W H b) :
    (∀ b ∈ stepBoidsRun frames boids W H p, inCanvas W H b) ∧
    (frames ≠ [] → ∀ b ∈ stepBoidsRun frames boids W H p,
      b.vx ^ 2 + b.vy ^ 2 ≤ p.maxSpeed ^ 2) := by
  have hpos : ∀ (fs : List (Option (ℝ × ℝ) × ℝ)) (bs : List Boid),
      (∀ b ∈ bs, inCanvas W H b) →
      ∀ b ∈ stepBoidsRun fs bs W H p, inCanvas W H b := by
    intro fs
    induction fs with
    | nil => intro bs h b hb; exact h b hb
    | cons f t ihf =>
        intro bs h
        have hrw : stepBoidsRun (f :: t) bs W H p =
            stepBoidsRun t (stepBoids bs W H p f.1 f.2) W H p := rfl
        rw [hrw]
        exact ihf _ (stepBoids_inv bs W H p f.1 f.2 hM hMW hMH h).2.1
  refine ⟨hpos frames boids hstart, ?_⟩
  intro hne
  rcases List.eq_nil_or_concat frames with rfl | ⟨fs, f, rfl⟩
  · exact absurd rfl hne
  · have hrun : stepBoidsRun (fs.concat f) boids W H p =
        stepBoids (stepBoidsRun fs boids W H p) W H p f.1 f.2 := by
      unfold stepBoidsRun
      rw [List.concat_eq_append, List.foldl_append]
      rfl
    rw [hrun]
    exact (stepBoids_inv _ W H p f.1 f.2 hM hMW hMH (hpos fs boids hstart)).2.2

/-- Witness for C7 at a concrete input: a single slow boid at (1,1) in a
10×10 canvas stays inside the closed canvas after one frame. -/
theorem claim_C7_witness :
    inCanvas 10 10 ((stepBoidsRun [(none, 0)] [⟨1, 1, 0, 0, 0⟩] 10 10
      ⟨1, 2, 0, 0, 0, 1⟩).getD 0 ⟨0, 0, 0, 0, 0⟩) := by
  have h := claim_C7 [⟨1, 1, 0, 0, 0⟩] 10 10 ⟨1, 2, 0, 0, 0, 1⟩ [(none, 0)]
    (by norm_num) (by norm_num) (by norm_num)
    (by
      intro b hb
      rw [List.mem_singleton] at hb
      subst hb
      exact ⟨by norm_num, by norm_num, by norm_num, by norm_num⟩)
  have hlen : (stepBoidsRun [(none, 0)] [⟨1, 1, 0, 0, 0⟩] 10 10
      ⟨1, 2, 0, 0, 0, 1⟩).length = 1 := by
    rw [show stepBoidsRun [(none, 0)] [(⟨1, 1, 0, 0, 0⟩ : Boid)] 10 10 ⟨1, 2, 0, 0, 0, 1⟩ =
      stepBoids [⟨1, 1, 0, 0, 0⟩] 10 10 ⟨1, 2, 0, 0, 0, 1⟩ none 0 from rfl]
    rw [stepBoids_length]
    rfl
  rw [List.getD_eq_getElem _ _ (by omega)]
  exact h.1 _ (List.getElem_mem (by omega))

set_option maxHeartbeats 1000000 in
/-- Counterexample for C7 as stated: a boid starting strictly inside the
canvas at (5,5) with velocity (5,0) and maxSpeed 6 lands exactly on `x = W`
after one step (the wrap `if (x > W) x -= W` keeps `x = W`), so positions do
not remain within the half-open box `[0,W)×[0,H)`. -/
theorem claim_C7_counterexample :
    ((stepBoids [⟨5, 5, 5, 0, 0⟩] 10 10 ⟨1, 6, 0, 0, 0, 1⟩ none 0).getD 0
      ⟨0, 0, 0, 0, 0⟩).x = 10 ∧
    ¬ (((stepBoids [⟨5, 5, 5, 0, 0⟩] 10 10 ⟨1, 6, 0, 0, 0, 1⟩ none 0).getD 0
      ⟨0, 0, 0, 0, 0⟩).x < 10) := by
  have hsqrt : Real.sqrt ((5 : ℝ) ^ 2 + 0 ^ 2) = 5 := by
    rw [show ((5 : ℝ) ^ 2 + 0 ^ 2) = 5 ^ 2 by norm_num,
      Real.sqrt_sq (by norm_num : (0 : ℝ) ≤ 5)]
  have hsqrt25 : Real.sqrt (25 : ℝ) = 5 := by
    rw [show (25 : ℝ) = 5 ^ 2 by norm_num,
      Real.sqrt_sq (by norm_num : (0 : ℝ) ≤ 5)]
  have hres : (stepBoids [⟨5, 5, 5, 0, 0⟩] 10 10 ⟨1, 6, 0, 0, 0, 1⟩ none 0).getD 0
      ⟨0, 0, 0, 0, 0⟩ = ⟨10, 5, 5, 0, 0⟩ := by
    norm_num [stepBoids, updateBoid, scanNeighbors, clampSpeed, wrapCoord,
      List.range_succ, List.enum, List.enumFrom, hsqrt, hsqrt25]
  rw [hres]
  norm_num

end Synesthesia
